import Mathlib

/-!
# Verification of the BidBeam order book and client replica

Shallow embedding of `backend/order_book.py` and `backend/market_data_model.py`.

Modelling conventions:

* Python `float` prices and timestamps are modelled as `Int`.  The code only
  compares prices and timestamps (`<`, `>`, `!=`, dict-key equality) and never
  does arithmetic on them, so any linearly ordered type with decidable
  equality represents the behaviour; integers keep everything decidable.
* Python `int` quantities are modelled as `Int` (they may be negative on
  unvalidated input, and the code subtracts from them).
* `heapq` is the Python standard library (not part of this repository); it is
  modelled by its documented observable behaviour: `heap[0]` is the least
  element under the element ordering (`Order.__lt__` here), `heappush` adds an
  element, `heappop` removes the least element, and iteration visits exactly
  the stored elements.  We realise this by keeping the heap list sorted by the
  element ordering, so that `heappush` is an ordered insert, `heappop` drops
  the head, and `heap[0]` is the head.  Every observable of the book
  (`heap[0]`, pops, and the order-independent aggregation in `dump_book`)
  factors through this abstraction; ties (equal price and timestamp) are
  resolved arbitrarily by a real binary heap and are resolved
  after-equal-keys here.
* The wall-clock fields that the code writes but never reads
  (`Trade.timestamp`, the timestamp argument of the update callback) are
  omitted; `Order.timestamp` is kept because `__lt__` reads it.
* The `on_market_update` callback is modelled by returning the ordered list of
  emitted `(price, quantity, side)` updates; the `instrument_id` that is
  passed through unchanged is omitted.
* `print` debugging statements are ignored.
-/

namespace BidBeam

/-- `Order` from `backend/order_book.py` (`order_id`, `price`, `quantity`,
`side` — `true` for buy —, `order_type` — `"limit"` or `"market"` —, and the
creation `timestamp`). -/
structure Order where
  order_id : Int
  price : Int
  quantity : Int
  side : Bool
  order_type : String
  timestamp : Int
deriving DecidableEq

/-- `Trade` from `backend/order_book.py`; the unread wall-clock `timestamp`
field is omitted. -/
structure Trade where
  buy_order_id : Int
  sell_order_id : Int
  price : Int
  quantity : Int
deriving DecidableEq

/-- One invocation of the `on_market_update` callback made by
`OrderBook._notify_update`: the `(price, quantity, side)` triple. -/
structure Update where
  price : Int
  quantity : Int
  side : Bool
deriving DecidableEq

/-- `Order.__lt__`: buy orders put the higher price first, sell orders the
lower price first; equal prices fall back to the earlier timestamp. -/
def Order.lt (self other : Order) : Bool :=
  if self.side then
    if self.price ≠ other.price then decide (other.price < self.price)
    else decide (self.timestamp < other.timestamp)
  else
    if self.price ≠ other.price then decide (self.price < other.price)
    else decide (self.timestamp < other.timestamp)

/-- `heapq.heappush` under the sorted-list realisation of the heap: ordered
insertion with respect to `Order.lt` (a new element goes after elements it is
not strictly less than, in particular after equal keys, matching FIFO
insertion of a stable priority structure). -/
def heappush (heap : List Order) (o : Order) : List Order :=
  match heap with
  | [] => [o]
  | h :: t => if o.lt h then o :: h :: t else h :: heappush t o

/-- The mutable state of `OrderBook`: the two heaps and the trade log.
The immutable `instrument_id` and the callback (modelled by returned update
lists) are omitted. -/
structure Book where
  buy_heap : List Order
  sell_heap : List Order
  trade_log : List Trade
deriving DecidableEq

/-- A fresh `OrderBook()`. -/
def emptyBook : Book := ⟨[], [], []⟩

/-- Result of one matching loop (`_match_buy` / `_match_sell`): the incoming
order with its final residual quantity, the final opposite-side heap, and the
trades and update notifications emitted, in order. -/
structure MatchResult where
  order : Order
  heap : List Order
  trades : List Trade
  updates : List Update
deriving DecidableEq

/-- The `while` loop of `OrderBook._match_buy`, with an explicit fuel
parameter.  Each iteration either fully consumes the best resting sell (which
is then popped, shrinking the heap) or exhausts the incoming quantity (so the
next check stops the loop); `sells.length + 1` fuel therefore always
suffices, see `matchBuy`. -/
def matchBuyFuel : Nat → Order → List Order → MatchResult
  | 0, b, sells => ⟨b, sells, [], []⟩
  | _ + 1, b, [] => ⟨b, [], [], []⟩
  | fuel + 1, b, s :: rest =>
    if b.quantity ≤ 0 then ⟨b, s :: rest, [], []⟩
    else if b.order_type = "limit" ∧ b.price < s.price then ⟨b, s :: rest, [], []⟩
    else
      let tq := min b.quantity s.quantity
      let tr : Trade := ⟨b.order_id, s.order_id, s.price, tq⟩
      let b' : Order := { b with quantity := b.quantity - tq }
      if s.quantity - tq = 0 then
        let r := matchBuyFuel fuel b' rest
        ⟨r.order, r.heap, tr :: r.trades, (⟨s.price, 0, false⟩ : Update) :: r.updates⟩
      else
        let s' : Order := { s with quantity := s.quantity - tq }
        let r := matchBuyFuel fuel b' (s' :: rest)
        ⟨r.order, r.heap, tr :: r.trades,
          (⟨s.price, s.quantity - tq, false⟩ : Update) :: r.updates⟩

/-- `OrderBook._match_buy`. -/
def matchBuy (b : Order) (sells : List Order) : MatchResult :=
  matchBuyFuel (sells.length + 1) b sells

/-- The `while` loop of `OrderBook._match_sell`, with fuel (see
`matchBuyFuel`). -/
def matchSellFuel : Nat → Order → List Order → MatchResult
  | 0, s, buys => ⟨s, buys, [], []⟩
  | _ + 1, s, [] => ⟨s, [], [], []⟩
  | fuel + 1, s, b :: rest =>
    if s.quantity ≤ 0 then ⟨s, b :: rest, [], []⟩
    else if s.order_type = "limit" ∧ b.price < s.price then ⟨s, b :: rest, [], []⟩
    else
      let tq := min s.quantity b.quantity
      let tr : Trade := ⟨b.order_id, s.order_id, b.price, tq⟩
      let s' : Order := { s with quantity := s.quantity - tq }
      if b.quantity - tq = 0 then
        let r := matchSellFuel fuel s' rest
        ⟨r.order, r.heap, tr :: r.trades, (⟨b.price, 0, true⟩ : Update) :: r.updates⟩
      else
        let b' : Order := { b with quantity := b.quantity - tq }
        let r := matchSellFuel fuel s' (b' :: rest)
        ⟨r.order, r.heap, tr :: r.trades,
          (⟨b.price, b.quantity - tq, true⟩ : Update) :: r.updates⟩

/-- `OrderBook._match_sell`. -/
def matchSell (s : Order) (buys : List Order) : MatchResult :=
  matchSellFuel (buys.length + 1) s buys

/-- Result of `OrderBook.add_order`: the new book state, the trades this call
appended to the trade log, and the ordered update notifications it emitted. -/
structure SubmitResult where
  book : Book
  trades : List Trade
  updates : List Update
deriving DecidableEq

/-- `OrderBook.add_order`: match against the opposite side, then push the
residual back onto its own heap when it is a limit order with positive
remaining quantity.  No validation is performed and no notification is
emitted for the incoming side. -/
def addOrder (book : Book) (o : Order) : SubmitResult :=
  if o.side then
    let r := matchBuy o book.sell_heap
    let pushed :=
      if 0 < r.order.quantity ∧ r.order.order_type = "limit"
      then heappush book.buy_heap r.order else book.buy_heap
    ⟨⟨pushed, r.heap, book.trade_log ++ r.trades⟩, r.trades, r.updates⟩
  else
    let r := matchSell o book.buy_heap
    let pushed :=
      if 0 < r.order.quantity ∧ r.order.order_type = "limit"
      then heappush book.sell_heap r.order else book.sell_heap
    ⟨⟨r.heap, pushed, book.trade_log ++ r.trades⟩, r.trades, r.updates⟩

/-- `OrderBook.get_best_bid`: `buy_heap[0]` if non-empty. -/
def getBestBid (book : Book) : Option Order := book.buy_heap.head?

/-- `OrderBook.get_best_ask`: `sell_heap[0]` if non-empty. -/
def getBestAsk (book : Book) : Option Order := book.sell_heap.head?

/-- `buy_levels[price] += qty` / `buy_levels[price] = qty` of `dump_book`:
Python-dict accumulation into an association list (update in place keeps the
key's insertion position, a new key is appended). -/
def addLevel : List (Int × Int) → Int → Int → List (Int × Int)
  | [], p, q => [(p, q)]
  | kv :: t, p, q => if kv.1 = p then (kv.1, kv.2 + q) :: t else kv :: addLevel t p q

/-- The per-side aggregation loop of `dump_book`. -/
def buildLevels (orders : List Order) : List (Int × Int) :=
  orders.foldl (fun acc o => addLevel acc o.price o.quantity) []

/-- `sorted(..., reverse=True)` over `(price, qty)` items whose prices are
distinct dict keys: ordered insertion by descending price. -/
def insertLevelDesc (x : Int × Int) : List (Int × Int) → List (Int × Int)
  | [] => [x]
  | y :: t => if y.1 < x.1 then x :: y :: t else y :: insertLevelDesc x t

/-- `sorted(...)` over `(price, qty)` items: ordered insertion by ascending
price. -/
def insertLevelAsc (x : Int × Int) : List (Int × Int) → List (Int × Int)
  | [] => [x]
  | y :: t => if x.1 < y.1 then x :: y :: t else y :: insertLevelAsc x t

/-- Sort price levels descending by price. -/
def sortLevelsDesc (l : List (Int × Int)) : List (Int × Int) :=
  l.foldr insertLevelDesc []

/-- Sort price levels ascending by price. -/
def sortLevelsAsc (l : List (Int × Int)) : List (Int × Int) :=
  l.foldr insertLevelAsc []

/-- `OrderBook.dump_book`: `(bids, asks)` as `(price, aggregate quantity)`
levels, bids descending, asks ascending. -/
def dumpBook (book : Book) : List (Int × Int) × List (Int × Int) :=
  (sortLevelsDesc (buildLevels book.buy_heap),
   sortLevelsAsc (buildLevels book.sell_heap))

/-! ## Client-side replica (`backend/market_data_model.py`) -/

/-- A `pb2.OrderBookUpdate` as read by `ClientOrderBook.apply_update`:
`price`, `quantity`, `side` and `timestamp`. -/
structure ClientUpdate where
  price : Int
  quantity : Int
  side : Bool
  timestamp : Int
deriving DecidableEq

/-- A `pb2.OrderBookSnapshot` as read by `ClientOrderBook.apply_snapshot`:
bid and ask levels as `(price, quantity)` pairs, and the snapshot
`timestamp`. -/
structure ClientSnapshot where
  bids : List (Int × Int)
  asks : List (Int × Int)
  timestamp : Int
deriving DecidableEq

/-- Membership test `price in dict` on a Python dict modelled as an
association list. -/
def dictMem (d : List (Int × Int)) (p : Int) : Bool :=
  d.any fun kv => kv.1 = p

/-- `dict[p] = q`: replace in place if the key exists (keeping its insertion
position), otherwise append. -/
def dictSet : List (Int × Int) → Int → Int → List (Int × Int)
  | [], p, q => [(p, q)]
  | kv :: t, p, q => if kv.1 = p then (kv.1, q) :: t else kv :: dictSet t p q

/-- `del dict[p]` (dict keys are unique, so removing the first match
suffices). -/
def dictDel : List (Int × Int) → Int → List (Int × Int)
  | [], _ => []
  | kv :: t, p => if kv.1 = p then t else kv :: dictDel t p

/-- `dict.get(p)`: lookup by key. -/
def dictGet : List (Int × Int) → Int → Option Int
  | [], _ => none
  | kv :: t, p => if kv.1 = p then some kv.2 else dictGet t p

/-- `heapq.heappush(self._bid_heap, (-price, price))` under the sorted-list
heap model: the tuple ordering is by `-price` first, so the stored prices are
kept ascending by `-price`, i.e. descending by price (ties after). -/
def pushBidHeap : List Int → Int → List Int
  | [], p => [p]
  | x :: t, p => if x < p then p :: x :: t else x :: pushBidHeap t p

/-- `heapq.heappush(self._ask_heap, (price, price))` under the sorted-list
heap model: prices kept ascending (ties after). -/
def pushAskHeap : List Int → Int → List Int
  | [], p => [p]
  | x :: t, p => if p < x then p :: x :: t else x :: pushAskHeap t p

/-- The state of `ClientOrderBook`: the two price→quantity dicts, the two
lazy price heaps (only the price component of the stored tuples is modelled,
the first tuple component being determined by it), and
`last_update_timestamp`.  The immutable `instrument_id` is omitted. -/
structure ClientOrderBook where
  bids : List (Int × Int)
  bid_heap : List Int
  asks : List (Int × Int)
  ask_heap : List Int
  last_update_timestamp : Int
deriving DecidableEq

/-- `ClientOrderBook(instrument_id)`: empty replica. -/
def emptyClientBook : ClientOrderBook := ⟨[], [], [], [], 0⟩

/-- `ClientOrderBook.apply_snapshot`: clear all four containers, repopulate
the dicts and heaps from the snapshot levels, and set
`last_update_timestamp` to the snapshot timestamp. -/
def applySnapshot (_cb : ClientOrderBook) (s : ClientSnapshot) : ClientOrderBook :=
  let bids := s.bids.foldl (fun d lv => dictSet d lv.1 lv.2) []
  let bidHeap := s.bids.foldl (fun h lv => pushBidHeap h lv.1) []
  let asks := s.asks.foldl (fun d lv => dictSet d lv.1 lv.2) []
  let askHeap := s.asks.foldl (fun h lv => pushAskHeap h lv.1) []
  ⟨bids, bidHeap, asks, askHeap, s.timestamp⟩

/-- `ClientOrderBook.apply_update`: if `quantity > 0`, push the price on the
side's heap when it is a new key and set `dict[price] = quantity`; otherwise
delete the key if present.  `last_update_timestamp` is overwritten
unconditionally — the update's timestamp is never compared with the current
one. -/
def applyUpdate (cb : ClientOrderBook) (u : ClientUpdate) : ClientOrderBook :=
  if u.side then
    if 0 < u.quantity then
      let heap' := if dictMem cb.bids u.price then cb.bid_heap
                   else pushBidHeap cb.bid_heap u.price
      { cb with bids := dictSet cb.bids u.price u.quantity, bid_heap := heap',
                last_update_timestamp := u.timestamp }
    else
      { cb with bids := if dictMem cb.bids u.price then dictDel cb.bids u.price
                        else cb.bids,
                last_update_timestamp := u.timestamp }
  else
    if 0 < u.quantity then
      let heap' := if dictMem cb.asks u.price then cb.ask_heap
                   else pushAskHeap cb.ask_heap u.price
      { cb with asks := dictSet cb.asks u.price u.quantity, ask_heap := heap',
                last_update_timestamp := u.timestamp }
    else
      { cb with asks := if dictMem cb.asks u.price then dictDel cb.asks u.price
                        else cb.asks,
                last_update_timestamp := u.timestamp }

/-! ## Derived notions used by the statements -/

/-- "`a` is no worse than `c`" for heap elements: `c` is not strictly below
`a` in the `Order.__lt__` ordering.  A heap list sorted by this relation has
the heap's observable property: its head is a least element. -/
def heapLE (a c : Order) : Prop := Order.lt c a = false

/-- The sorted-list realisation of a `heapq` heap: no later element is
strictly less than an earlier one. -/
def heapSorted (l : List Order) : Prop := l.Pairwise heapLE

/-- Prices of the resting bids. -/
def bidPrices (book : Book) : List Int := book.buy_heap.map Order.price

/-- Prices of the resting asks. -/
def askPrices (book : Book) : List Int := book.sell_heap.map Order.price

/-- The book does not cross: every resting bid price is strictly below every
resting ask price.  Whenever both sides are non-empty this is exactly
`max(bid_prices) < min(ask_prices)`, and it is vacuously true when either
side is empty. -/
def crossFree (book : Book) : Prop :=
  ∀ pb ∈ bidPrices book, ∀ pa ∈ askPrices book, pb < pa

/-- All orders of a heap carry the given side tag. -/
def allSide (l : List Order) (b : Bool) : Prop := ∀ o ∈ l, o.side = b

/-- All resting quantities are strictly positive. -/
def allPos (l : List Order) : Prop := ∀ o ∈ l, 0 < o.quantity

/-- The state invariant of `OrderBook` maintained by `add_order`: both heaps
are sorted by `Order.__lt__`, carry the right side tags, all resting
quantities are positive, and the book does not cross. -/
def BookInv (book : Book) : Prop :=
  heapSorted book.buy_heap ∧ heapSorted book.sell_heap ∧
  allSide book.buy_heap true ∧ allSide book.sell_heap false ∧
  allPos book.buy_heap ∧ allPos book.sell_heap ∧ crossFree book

/-- Book states reachable from a fresh `OrderBook()` by a sequence of
`add_order` calls with arbitrary (even unvalidated) input orders. -/
inductive Reachable : Book → Prop where
  | empty : Reachable emptyBook
  | step (book : Book) (o : Order) : Reachable book → Reachable (addOrder book o).book

/-- Total resting quantity of a heap (the available liquidity). -/
def sumQty (l : List Order) : Int := (l.map Order.quantity).sum

/-- Total traded quantity of a list of trades. -/
def tradesSum (l : List Trade) : Int := (l.map Trade.quantity).sum

/-! ## Concrete fixtures used by witnesses and counterexamples -/

/-- A resting sell, 2 @ 10, arrived first. -/
def oS1 : Order := ⟨1, 10, 2, false, "limit", 1⟩

/-- A second resting sell at the same price, 3 @ 10, arrived second. -/
def oS2 : Order := ⟨2, 10, 3, false, "limit", 2⟩

/-- The book holding `oS1` then `oS2`: one ask level at price 10 with
aggregate quantity 5, made of two resting orders. -/
def bookTwoSells : Book := (addOrder (addOrder emptyBook oS1).book oS2).book

/-- An incoming buy, 2 @ 10: exactly consumes `oS1`. -/
def oBuyTwo : Order := ⟨3, 10, 2, true, "limit", 3⟩

/-- An incoming buy, 4 @ 10: consumes `oS1` and half of `oS2`. -/
def oBuyFour : Order := ⟨3, 10, 4, true, "limit", 3⟩

/-- An incoming buy, 5 @ 10: consumes the whole level in two trades. -/
def oBuyFive : Order := ⟨3, 10, 5, true, "limit", 3⟩

/-- A buy limit order, 5 @ 100. -/
def oBid100 : Order := ⟨1, 100, 5, true, "limit", 1⟩

/-- A sell limit order, 5 @ 101: rests above the best bid. -/
def oAsk101 : Order := ⟨2, 101, 5, false, "limit", 2⟩

/-- A book with one resting bid (100) and one resting ask (101). -/
def bookBidAsk : Book := (addOrder (addOrder emptyBook oBid100).book oAsk101).book

/-- A further buy limit order, 1 @ 99, that rests below the best ask. -/
def oBid99 : Order := ⟨3, 99, 1, true, "limit", 3⟩

/-- Resting asks 3 @ 101 and 2 @ 102 (scenario S2 of the specification). -/
def oAsk101x3 : Order := ⟨1, 101, 3, false, "limit", 1⟩

/-- Second resting ask for the S2 scenario. -/
def oAsk102x2 : Order := ⟨2, 102, 2, false, "limit", 2⟩

/-- The S2 book: asks `{101: 3, 102: 2}`. -/
def bookS2 : Book := (addOrder (addOrder emptyBook oAsk101x3).book oAsk102x2).book

/-- A market buy for 10, exceeding the resting liquidity of 5. -/
def oMarketTen : Order := ⟨3, 0, 10, true, "market", 3⟩

/-- A buy limit order that rests on an empty book without emitting any
update. -/
def oLoneBid : Order := ⟨1, 10, 1, true, "limit", 1⟩

/-- A LIMIT buy with non-positive price: the specification demands its
rejection, the code rests it. -/
def oBadPrice : Order := ⟨1, -5, 3, true, "limit", 1⟩

/-- An order with negative quantity: processed as a silent no-op. -/
def oNegQty : Order := ⟨1, 10, -2, true, "limit", 1⟩

/-- A big resting bid, 10 @ 100. -/
def oBigBid : Order := ⟨1, 100, 10, true, "limit", 1⟩

/-- A book holding only `oBigBid`. -/
def bookBigBid : Book := (addOrder emptyBook oBigBid).book

/-- An incoming sell, 4 @ 99, crossing `oBigBid` with a price gap. -/
def oSellLow : Order := ⟨2, 99, 4, false, "limit", 2⟩

/-- A client snapshot taken at sequence/timestamp 10 with one bid level. -/
def snapTen : ClientSnapshot := ⟨[(100, 5)], [], 10⟩

/-- The client book after applying `snapTen`. -/
def cbSnapTen : ClientOrderBook := applySnapshot emptyClientBook snapTen

/-- A stale update (timestamp 3 ≤ 10) that the specification says must be
discarded. -/
def updStale : ClientUpdate := ⟨100, 7, true, 3⟩

/-! ## Basic facts about the order comparison and the heap model -/

theorem lt_quantity_left (a c : Order) (q : Int) :
    Order.lt { a with quantity := q } c = Order.lt a c := rfl

theorem lt_quantity_right (a c : Order) (q : Int) :
    Order.lt c { a with quantity := q } = Order.lt c a := rfl

theorem lt_true_iff (a c : Order) :
    Order.lt a c = true ↔
      (a.price ≠ c.price ∧ (if a.side then c.price < a.price else a.price < c.price)) ∨
      (a.price = c.price ∧ a.timestamp < c.timestamp) := by
  unfold Order.lt
  cases ha : a.side <;> by_cases hp : a.price = c.price <;> simp [ha, hp]

theorem lt_false_iff (a c : Order) :
    Order.lt a c = false ↔
      ¬ ((a.price ≠ c.price ∧ (if a.side then c.price < a.price else a.price < c.price)) ∨
         (a.price = c.price ∧ a.timestamp < c.timestamp)) := by
  rw [← Bool.not_eq_true, lt_true_iff]

theorem lt_asymm {a c : Order} (hs : a.side = c.side) (h : Order.lt a c = true) :
    Order.lt c a = false := by
  rw [lt_true_iff] at h
  rw [lt_false_iff]
  rw [hs] at h
  cases hb : c.side <;> simp [hb] at h ⊢ <;> omega

theorem lt_trans_false {o h x : Order} (hoh : o.side = h.side) (hxh : x.side = h.side)
    (h1 : Order.lt o h = true) (h2 : Order.lt x h = false) : Order.lt x o = false := by
  rw [lt_true_iff] at h1
  rw [lt_false_iff] at h2 ⊢
  rw [hoh] at h1
  rw [hxh] at h2 ⊢
  cases hb : h.side <;> simp [hb] at h1 h2 ⊢ <;> omega

theorem sell_head_min {s y : Order} (hy : y.side = false) (h : Order.lt y s = false) :
    s.price ≤ y.price := by
  rw [lt_false_iff] at h
  rw [hy] at h
  simp at h
  omega

theorem buy_head_max {b y : Order} (hy : y.side = true) (h : Order.lt y b = false) :
    y.price ≤ b.price := by
  rw [lt_false_iff] at h
  rw [hy] at h
  simp at h
  omega

theorem mem_heappush {l : List Order} {o x : Order} :
    x ∈ heappush l o ↔ x = o ∨ x ∈ l := by
  induction l with
  | nil => simp [heappush]
  | cons h t ih =>
    by_cases hc : o.lt h = true
    · simp [heappush, hc]
    · simp [heappush, hc, ih]
      tauto

theorem heappush_allSide {l : List Order} {o : Order} {b : Bool}
    (hl : allSide l b) (ho : o.side = b) : allSide (heappush l o) b := by
  intro x hx
  rcases mem_heappush.1 hx with rfl | hx
  · exact ho
  · exact hl x hx

theorem heappush_sorted {l : List Order} {o : Order} {b : Bool}
    (hl : heapSorted l) (hside : allSide l b) (ho : o.side = b) :
    heapSorted (heappush l o) := by
  induction l with
  | nil => simp [heappush, heapSorted]
  | cons h t ih =>
    have hhside : h.side = b := hside h (List.mem_cons_self h t)
    have htside : allSide t b := fun x hx => hside x (List.mem_cons_of_mem _ hx)
    rcases List.pairwise_cons.1 hl with ⟨hhd, htl⟩
    by_cases hc : o.lt h = true
    · show List.Pairwise heapLE (if o.lt h then o :: h :: t else _)
      rw [if_pos hc]
      refine List.pairwise_cons.2 ⟨?_, hl⟩
      intro x hx
      rcases List.mem_cons.1 hx with rfl | hx
      · exact lt_asymm (ho.trans hhside.symm) hc
      · exact lt_trans_false (ho.trans hhside.symm) ((htside x hx).trans hhside.symm) hc (hhd x hx)
    · show List.Pairwise heapLE (if o.lt h then o :: h :: t else h :: heappush t o)
      rw [if_neg hc]
      refine List.pairwise_cons.2 ⟨?_, ih htl htside⟩
      intro x hx
      rcases mem_heappush.1 hx with rfl | hx
      · show Order.lt x h = false
        rw [← Bool.not_eq_true]
        exact hc
      · exact hhd x hx

/-! ## Unfolding equations for the matching loops -/

theorem matchBuyFuel_nonpos (fuel : Nat) (b : Order) (sells : List Order)
    (h : b.quantity ≤ 0) : matchBuyFuel fuel b sells = ⟨b, sells, [], []⟩ := by
  cases fuel with
  | zero => rfl
  | succ n =>
    cases sells with
    | nil => rfl
    | cons s rest => simp [matchBuyFuel, h]

theorem matchBuy_nonpos (b : Order) (sells : List Order) (h : b.quantity ≤ 0) :
    matchBuy b sells = ⟨b, sells, [], []⟩ :=
  matchBuyFuel_nonpos _ _ _ h

theorem matchBuy_nil (b : Order) : matchBuy b [] = ⟨b, [], [], []⟩ := rfl

theorem matchBuy_break {b s : Order} (rest : List Order) (hq : 0 < b.quantity)
    (hbr : b.order_type = "limit" ∧ b.price < s.price) :
    matchBuy b (s :: rest) = ⟨b, s :: rest, [], []⟩ := by
  have hq' : ¬ b.quantity ≤ 0 := by omega
  show matchBuyFuel (rest.length + 1 + 1) b (s :: rest) = _
  simp [matchBuyFuel, hq', hbr]

theorem matchBuy_pop {b s : Order} (rest : List Order) (hq : 0 < b.quantity)
    (hbr : ¬ (b.order_type = "limit" ∧ b.price < s.price))
    (hz : s.quantity - min b.quantity s.quantity = 0) :
    matchBuy b (s :: rest) =
      ⟨(matchBuy { b with quantity := b.quantity - min b.quantity s.quantity } rest).order,
       (matchBuy { b with quantity := b.quantity - min b.quantity s.quantity } rest).heap,
       ⟨b.order_id, s.order_id, s.price, min b.quantity s.quantity⟩ ::
         (matchBuy { b with quantity := b.quantity - min b.quantity s.quantity } rest).trades,
       ⟨s.price, 0, false⟩ ::
         (matchBuy { b with quantity := b.quantity - min b.quantity s.quantity } rest).updates⟩ := by
  have hq' : ¬ b.quantity ≤ 0 := by omega
  show matchBuyFuel (rest.length + 1 + 1) b (s :: rest) = _
  simp [matchBuyFuel, hq', hbr, hz, matchBuy]

theorem matchBuy_fill_stop {b s : Order} (rest : List Order) (hq : 0 < b.quantity)
    (hbr : ¬ (b.order_type = "limit" ∧ b.price < s.price))
    (hz : s.quantity - min b.quantity s.quantity ≠ 0) :
    matchBuy b (s :: rest) =
      ⟨{ b with quantity := b.quantity - min b.quantity s.quantity },
       { s with quantity := s.quantity - min b.quantity s.quantity } :: rest,
       [⟨b.order_id, s.order_id, s.price, min b.quantity s.quantity⟩],
       [⟨s.price, s.quantity - min b.quantity s.quantity, false⟩]⟩ := by
  have hq' : ¬ b.quantity ≤ 0 := by omega
  have hb0 : b.quantity ≤ s.quantity := by
    rcases le_total b.quantity s.quantity with h | h
    · exact h
    · rw [min_eq_right h] at hz
      omega
  have hz2 : s.quantity - b.quantity ≠ 0 := by
    rw [min_eq_left hb0] at hz
    exact hz
  show matchBuyFuel (rest.length + 1 + 1) b (s :: rest) = _
  simp [matchBuyFuel, hq', hbr, hz2, hb0, min_eq_left, matchBuyFuel_nonpos]

theorem matchSellFuel_nonpos (fuel : Nat) (s : Order) (buys : List Order)
    (h : s.quantity ≤ 0) : matchSellFuel fuel s buys = ⟨s, buys, [], []⟩ := by
  cases fuel with
  | zero => rfl
  | succ n =>
    cases buys with
    | nil => rfl
    | cons b rest => simp [matchSellFuel, h]

theorem matchSell_nonpos (s : Order) (buys : List Order) (h : s.quantity ≤ 0) :
    matchSell s buys = ⟨s, buys, [], []⟩ :=
  matchSellFuel_nonpos _ _ _ h

theorem matchSell_nil (s : Order) : matchSell s [] = ⟨s, [], [], []⟩ := rfl

theorem matchSell_break {s b : Order} (rest : List Order) (hq : 0 < s.quantity)
    (hbr : s.order_type = "limit" ∧ b.price < s.price) :
    matchSell s (b :: rest) = ⟨s, b :: rest, [], []⟩ := by
  have hq' : ¬ s.quantity ≤ 0 := by omega
  show matchSellFuel (rest.length + 1 + 1) s (b :: rest) = _
  simp [matchSellFuel, hq', hbr]

theorem matchSell_pop {s b : Order} (rest : List Order) (hq : 0 < s.quantity)
    (hbr : ¬ (s.order_type = "limit" ∧ b.price < s.price))
    (hz : b.quantity - min s.quantity b.quantity = 0) :
    matchSell s (b :: rest) =
      ⟨(matchSell { s with quantity := s.quantity - min s.quantity b.quantity } rest).order,
       (matchSell { s with quantity := s.quantity - min s.quantity b.quantity } rest).heap,
       ⟨b.order_id, s.order_id, b.price, min s.quantity b.quantity⟩ ::
         (matchSell { s with quantity := s.quantity - min s.quantity b.quantity } rest).trades,
       ⟨b.price, 0, true⟩ ::
         (matchSell { s with quantity := s.quantity - min s.quantity b.quantity } rest).updates⟩ := by
  have hq' : ¬ s.quantity ≤ 0 := by omega
  show matchSellFuel (rest.length + 1 + 1) s (b :: rest) = _
  simp [matchSellFuel, hq', hbr, hz, matchSell]

theorem matchSell_fill_stop {s b : Order} (rest : List Order) (hq : 0 < s.quantity)
    (hbr : ¬ (s.order_type = "limit" ∧ b.price < s.price))
    (hz : b.quantity - min s.quantity b.quantity ≠ 0) :
    matchSell s (b :: rest) =
      ⟨{ s with quantity := s.quantity - min s.quantity b.quantity },
       { b with quantity := b.quantity - min s.quantity b.quantity } :: rest,
       [⟨b.order_id, s.order_id, b.price, min s.quantity b.quantity⟩],
       [⟨b.price, b.quantity - min s.quantity b.quantity, true⟩]⟩ := by
  have hq' : ¬ s.quantity ≤ 0 := by omega
  have hs0 : s.quantity ≤ b.quantity := by
    rcases le_total s.quantity b.quantity with h | h
    · exact h
    · rw [min_eq_right h] at hz
      omega
  have hz2 : b.quantity - s.quantity ≠ 0 := by
    rw [min_eq_left hs0] at hz
    exact hz
  show matchSellFuel (rest.length + 1 + 1) s (b :: rest) = _
  simp [matchSellFuel, hq', hbr, hz2, hs0, min_eq_left, matchSellFuel_nonpos]

/-! ## Structural properties of the matching loops -/

theorem matchBuy_order_shape (b : Order) (sells : List Order) :
    ∃ q, (matchBuy b sells).order = { b with quantity := q } := by
  induction sells generalizing b with
  | nil => exact ⟨b.quantity, rfl⟩
  | cons s rest ih =>
    by_cases hq : 0 < b.quantity
    · by_cases hbr : b.order_type = "limit" ∧ b.price < s.price
      · rw [matchBuy_break rest hq hbr]
        exact ⟨b.quantity, rfl⟩
      · by_cases hz : s.quantity - min b.quantity s.quantity = 0
        · rw [matchBuy_pop rest hq hbr hz]
          exact ih { b with quantity := b.quantity - min b.quantity s.quantity }
        · rw [matchBuy_fill_stop rest hq hbr hz]
          exact ⟨b.quantity - min b.quantity s.quantity, rfl⟩
    · rw [matchBuy_nonpos _ _ (by omega)]
      exact ⟨b.quantity, rfl⟩

theorem matchSell_order_shape (s : Order) (buys : List Order) :
    ∃ q, (matchSell s buys).order = { s with quantity := q } := by
  induction buys generalizing s with
  | nil => exact ⟨s.quantity, rfl⟩
  | cons b rest ih =>
    by_cases hq : 0 < s.quantity
    · by_cases hbr : s.order_type = "limit" ∧ b.price < s.price
      · rw [matchSell_break rest hq hbr]
        exact ⟨s.quantity, rfl⟩
      · by_cases hz : b.quantity - min s.quantity b.quantity = 0
        · rw [matchSell_pop rest hq hbr hz]
          exact ih { s with quantity := s.quantity - min s.quantity b.quantity }
        · rw [matchSell_fill_stop rest hq hbr hz]
          exact ⟨s.quantity - min s.quantity b.quantity, rfl⟩
    · rw [matchSell_nonpos _ _ (by omega)]
      exact ⟨s.quantity, rfl⟩

theorem matchBuy_heap_from (b : Order) (sells : List Order) :
    ∀ o ∈ (matchBuy b sells).heap, ∃ s ∈ sells,
      o.order_id = s.order_id ∧ o.price = s.price ∧ o.timestamp = s.timestamp ∧
      o.side = s.side ∧ o.quantity ≤ s.quantity := by
  induction sells generalizing b with
  | nil => simp [matchBuy_nil]
  | cons s rest ih =>
    by_cases hq : 0 < b.quantity
    · by_cases hbr : b.order_type = "limit" ∧ b.price < s.price
      · rw [matchBuy_break rest hq hbr]
        intro o ho
        exact ⟨o, ho, rfl, rfl, rfl, rfl, le_refl _⟩
      · by_cases hz : s.quantity - min b.quantity s.quantity = 0
        · rw [matchBuy_pop rest hq hbr hz]
          intro o ho
          obtain ⟨s1, hs1, h1⟩ := ih _ o ho
          exact ⟨s1, List.mem_cons_of_mem _ hs1, h1⟩
        · rw [matchBuy_fill_stop rest hq hbr hz]
          intro o ho
          rcases List.mem_cons.1 ho with rfl | ho
          · refine ⟨s, List.mem_cons_self _ _, rfl, rfl, rfl, rfl, ?_⟩
            have : 0 ≤ min b.quantity s.quantity ∨ True := Or.inr trivial
            show s.quantity - min b.quantity s.quantity ≤ s.quantity
            have hmin : min b.quantity s.quantity = b.quantity := by
              rcases le_total b.quantity s.quantity with h | h
              · exact min_eq_left h
              · rw [min_eq_right h] at hz
                omega
            omega
          · exact ⟨o, List.mem_cons_of_mem _ ho, rfl, rfl, rfl, rfl, le_refl _⟩
    · rw [matchBuy_nonpos _ _ (by omega)]
      intro o ho
      exact ⟨o, ho, rfl, rfl, rfl, rfl, le_refl _⟩

theorem matchSell_heap_from (s : Order) (buys : List Order) :
    ∀ o ∈ (matchSell s buys).heap, ∃ b ∈ buys,
      o.order_id = b.order_id ∧ o.price = b.price ∧ o.timestamp = b.timestamp ∧
      o.side = b.side ∧ o.quantity ≤ b.quantity := by
  induction buys generalizing s with
  | nil => simp [matchSell_nil]
  | cons b rest ih =>
    by_cases hq : 0 < s.quantity
    · by_cases hbr : s.order_type = "limit" ∧ b.price < s.price
      · rw [matchSell_break rest hq hbr]
        intro o ho
        exact ⟨o, ho, rfl, rfl, rfl, rfl, le_refl _⟩
      · by_cases hz : b.quantity - min s.quantity b.quantity = 0
        · rw [matchSell_pop rest hq hbr hz]
          intro o ho
          obtain ⟨b1, hb1, h1⟩ := ih _ o ho
          exact ⟨b1, List.mem_cons_of_mem _ hb1, h1⟩
        · rw [matchSell_fill_stop rest hq hbr hz]
          intro o ho
          rcases List.mem_cons.1 ho with rfl | ho
          · refine ⟨b, List.mem_cons_self _ _, rfl, rfl, rfl, rfl, ?_⟩
            show b.quantity - min s.quantity b.quantity ≤ b.quantity
            have hmin : min s.quantity b.quantity = s.quantity := by
              rcases le_total s.quantity b.quantity with h | h
              · exact min_eq_left h
              · rw [min_eq_right h] at hz
                omega
            omega
          · exact ⟨o, List.mem_cons_of_mem _ ho, rfl, rfl, rfl, rfl, le_refl _⟩
    · rw [matchSell_nonpos _ _ (by omega)]
      intro o ho
      exact ⟨o, ho, rfl, rfl, rfl, rfl, le_refl _⟩

theorem matchBuy_allPos {sells : List Order} (b : Order) (hpos : allPos sells) :
    allPos (matchBuy b sells).heap := by
  induction sells generalizing b with
  | nil => simp [matchBuy_nil, allPos]
  | cons s rest ih =>
    have hs : 0 < s.quantity := hpos s (List.mem_cons_self _ _)
    have hrest : allPos rest := fun o ho => hpos o (List.mem_cons_of_mem _ ho)
    by_cases hq : 0 < b.quantity
    · by_cases hbr : b.order_type = "limit" ∧ b.price < s.price
      · rw [matchBuy_break rest hq hbr]
        exact hpos
      · by_cases hz : s.quantity - min b.quantity s.quantity = 0
        · rw [matchBuy_pop rest hq hbr hz]
          exact ih _ hrest
        · rw [matchBuy_fill_stop rest hq hbr hz]
          intro o ho
          rcases List.mem_cons.1 ho with rfl | ho
          · show 0 < s.quantity - min b.quantity s.quantity
            have : min b.quantity s.quantity ≤ s.quantity := min_le_right _ _
            omega
          · exact hrest o ho
    · rw [matchBuy_nonpos _ _ (by omega)]
      exact hpos

theorem matchSell_allPos {buys : List Order} (s : Order) (hpos : allPos buys) :
    allPos (matchSell s buys).heap := by
  induction buys generalizing s with
  | nil => simp [matchSell_nil, allPos]
  | cons b rest ih =>
    have hrest : allPos rest := fun o ho => hpos o (List.mem_cons_of_mem _ ho)
    by_cases hq : 0 < s.quantity
    · by_cases hbr : s.order_type = "limit" ∧ b.price < s.price
      · rw [matchSell_break rest hq hbr]
        exact hpos
      · by_cases hz : b.quantity - min s.quantity b.quantity = 0
        · rw [matchSell_pop rest hq hbr hz]
          exact ih _ hrest
        · rw [matchSell_fill_stop rest hq hbr hz]
          intro o ho
          rcases List.mem_cons.1 ho with rfl | ho
          · show 0 < b.quantity - min s.quantity b.quantity
            have : min s.quantity b.quantity ≤ b.quantity := min_le_right _ _
            have hb : 0 < b.quantity := hpos b (List.mem_cons_self _ _)
            omega
          · exact hrest o ho
    · rw [matchSell_nonpos _ _ (by omega)]
      exact hpos

theorem matchBuy_sorted {sells : List Order} (b : Order) (hs : heapSorted sells) :
    heapSorted (matchBuy b sells).heap := by
  induction sells generalizing b with
  | nil => simpa [matchBuy_nil] using hs
  | cons s rest ih =>
    rcases List.pairwise_cons.1 hs with ⟨hhd, htl⟩
    by_cases hq : 0 < b.quantity
    · by_cases hbr : b.order_type = "limit" ∧ b.price < s.price
      · rw [matchBuy_break rest hq hbr]
        exact hs
      · by_cases hz : s.quantity - min b.quantity s.quantity = 0
        · rw [matchBuy_pop rest hq hbr hz]
          exact ih _ htl
        · rw [matchBuy_fill_stop rest hq hbr hz]
          refine List.pairwise_cons.2 ⟨?_, htl⟩
          intro x hx
          show Order.lt x { s with quantity := s.quantity - min b.quantity s.quantity } = false
          rw [lt_quantity_right]
          exact hhd x hx
    · rw [matchBuy_nonpos _ _ (by omega)]
      exact hs

theorem matchSell_sorted {buys : List Order} (s : Order) (hs : heapSorted buys) :
    heapSorted (matchSell s buys).heap := by
  induction buys generalizing s with
  | nil => simpa [matchSell_nil] using hs
  | cons b rest ih =>
    rcases List.pairwise_cons.1 hs with ⟨hhd, htl⟩
    by_cases hq : 0 < s.quantity
    · by_cases hbr : s.order_type = "limit" ∧ b.price < s.price
      · rw [matchSell_break rest hq hbr]
        exact hs
      · by_cases hz : b.quantity - min s.quantity b.quantity = 0
        · rw [matchSell_pop rest hq hbr hz]
          exact ih _ htl
        · rw [matchSell_fill_stop rest hq hbr hz]
          refine List.pairwise_cons.2 ⟨?_, htl⟩
          intro x hx
          show Order.lt x { b with quantity := b.quantity - min s.quantity b.quantity } = false
          rw [lt_quantity_right]
          exact hhd x hx
    · rw [matchSell_nonpos _ _ (by omega)]
      exact hs

theorem matchBuy_trades_maker (b : Order) (sells : List Order) :
    ∀ t ∈ (matchBuy b sells).trades, ∃ s ∈ sells,
      t.sell_order_id = s.order_id ∧ t.price = s.price ∧ t.buy_order_id = b.order_id := by
  induction sells generalizing b with
  | nil => simp [matchBuy_nil]
  | cons s rest ih =>
    by_cases hq : 0 < b.quantity
    · by_cases hbr : b.order_type = "limit" ∧ b.price < s.price
      · rw [matchBuy_break rest hq hbr]
        simp
      · by_cases hz : s.quantity - min b.quantity s.quantity = 0
        · rw [matchBuy_pop rest hq hbr hz]
          intro t ht
          rcases List.mem_cons.1 ht with rfl | ht
          · exact ⟨s, List.mem_cons_self _ _, rfl, rfl, rfl⟩
          · obtain ⟨s1, hs1, h1, h2, h3⟩ := ih _ t ht
            exact ⟨s1, List.mem_cons_of_mem _ hs1, h1, h2, h3⟩
        · rw [matchBuy_fill_stop rest hq hbr hz]
          intro t ht
          rcases List.mem_cons.1 ht with rfl | ht
          · exact ⟨s, List.mem_cons_self _ _, rfl, rfl, rfl⟩
          · simp at ht
    · rw [matchBuy_nonpos _ _ (by omega)]
      simp

theorem matchSell_trades_maker (s : Order) (buys : List Order) :
    ∀ t ∈ (matchSell s buys).trades, ∃ b ∈ buys,
      t.buy_order_id = b.order_id ∧ t.price = b.price ∧ t.sell_order_id = s.order_id := by
  induction buys generalizing s with
  | nil => simp [matchSell_nil]
  | cons b rest ih =>
    by_cases hq : 0 < s.quantity
    · by_cases hbr : s.order_type = "limit" ∧ b.price < s.price
      · rw [matchSell_break rest hq hbr]
        simp
      · by_cases hz : b.quantity - min s.quantity b.quantity = 0
        · rw [matchSell_pop rest hq hbr hz]
          intro t ht
          rcases List.mem_cons.1 ht with rfl | ht
          · exact ⟨b, List.mem_cons_self _ _, rfl, rfl, rfl⟩
          · obtain ⟨b1, hb1, h1, h2, h3⟩ := ih _ t ht
            exact ⟨b1, List.mem_cons_of_mem _ hb1, h1, h2, h3⟩
        · rw [matchSell_fill_stop rest hq hbr hz]
          intro t ht
          rcases List.mem_cons.1 ht with rfl | ht
          · exact ⟨b, List.mem_cons_self _ _, rfl, rfl, rfl⟩
          · simp at ht
    · rw [matchSell_nonpos _ _ (by omega)]
      simp

theorem matchBuy_updates_length (b : Order) (sells : List Order) :
    (matchBuy b sells).updates.length = (matchBuy b sells).trades.length := by
  induction sells generalizing b with
  | nil => rfl
  | cons s rest ih =>
    by_cases hq : 0 < b.quantity
    · by_cases hbr : b.order_type = "limit" ∧ b.price < s.price
      · rw [matchBuy_break rest hq hbr]
        rfl
      · by_cases hz : s.quantity - min b.quantity s.quantity = 0
        · rw [matchBuy_pop rest hq hbr hz]
          simp [ih]
        · rw [matchBuy_fill_stop rest hq hbr hz]
          rfl
    · rw [matchBuy_nonpos _ _ (by omega)]
      rfl

theorem matchSell_updates_length (s : Order) (buys : List Order) :
    (matchSell s buys).updates.length = (matchSell s buys).trades.length := by
  induction buys generalizing s with
  | nil => rfl
  | cons b rest ih =>
    by_cases hq : 0 < s.quantity
    · by_cases hbr : s.order_type = "limit" ∧ b.price < s.price
      · rw [matchSell_break rest hq hbr]
        rfl
      · by_cases hz : b.quantity - min s.quantity b.quantity = 0
        · rw [matchSell_pop rest hq hbr hz]
          simp [ih]
        · rw [matchSell_fill_stop rest hq hbr hz]
          rfl
    · rw [matchSell_nonpos _ _ (by omega)]
      rfl

theorem matchBuy_updates_side (b : Order) (sells : List Order) :
    ∀ u ∈ (matchBuy b sells).updates, u.side = false := by
  induction sells generalizing b with
  | nil => simp [matchBuy_nil]
  | cons s rest ih =>
    by_cases hq : 0 < b.quantity
    · by_cases hbr : b.order_type = "limit" ∧ b.price < s.price
      · rw [matchBuy_break rest hq hbr]
        simp
      · by_cases hz : s.quantity - min b.quantity s.quantity = 0
        · rw [matchBuy_pop rest hq hbr hz]
          intro u hu
          rcases List.mem_cons.1 hu with rfl | hu
          · rfl
          · exact ih _ u hu
        · rw [matchBuy_fill_stop rest hq hbr hz]
          intro u hu
          rcases List.mem_cons.1 hu with rfl | hu
          · rfl
          · simp at hu
    · rw [matchBuy_nonpos _ _ (by omega)]
      simp

theorem matchSell_updates_side (s : Order) (buys : List Order) :
    ∀ u ∈ (matchSell s buys).updates, u.side = true := by
  induction buys generalizing s with
  | nil => simp [matchSell_nil]
  | cons b rest ih =>
    by_cases hq : 0 < s.quantity
    · by_cases hbr : s.order_type = "limit" ∧ b.price < s.price
      · rw [matchSell_break rest hq hbr]
        simp
      · by_cases hz : b.quantity - min s.quantity b.quantity = 0
        · rw [matchSell_pop rest hq hbr hz]
          intro u hu
          rcases List.mem_cons.1 hu with rfl | hu
          · rfl
          · exact ih _ u hu
        · rw [matchSell_fill_stop rest hq hbr hz]
          intro u hu
          rcases List.mem_cons.1 hu with rfl | hu
          · rfl
          · simp at hu
    · rw [matchSell_nonpos _ _ (by omega)]
      simp

/-! ## Price bounds for rested residuals and heap heads -/

theorem matchBuy_rest_price {b : Order} {sells : List Order}
    (hlim : b.order_type = "limit") (hsorted : heapSorted sells)
    (hside : allSide sells false) (hq : 0 < (matchBuy b sells).order.quantity) :
    ∀ y ∈ (matchBuy b sells).heap, b.price < y.price := by
  induction sells generalizing b with
  | nil => simp [matchBuy_nil]
  | cons s rest ih =>
    rcases List.pairwise_cons.1 hsorted with ⟨hhd, htl⟩
    have hsides : allSide rest false := fun x hx => hside x (List.mem_cons_of_mem _ hx)
    by_cases hq0 : 0 < b.quantity
    · by_cases hbr : b.order_type = "limit" ∧ b.price < s.price
      · rw [matchBuy_break rest hq0 hbr]
        intro y hy
        rcases List.mem_cons.1 hy with rfl | hy
        · exact hbr.2
        · have : s.price ≤ y.price := sell_head_min (hside y (List.mem_cons_of_mem _ hy)) (hhd y hy)
          omega
      · by_cases hz : s.quantity - min b.quantity s.quantity = 0
        · rw [matchBuy_pop rest hq0 hbr hz] at hq ⊢
          exact ih hlim htl hsides hq
        · rw [matchBuy_fill_stop rest hq0 hbr hz] at hq
          have hmin : min b.quantity s.quantity = b.quantity := by
            rcases le_total b.quantity s.quantity with h | h
            · exact min_eq_left h
            · rw [min_eq_right h] at hz
              omega
          have : (0:Int) < b.quantity - min b.quantity s.quantity := hq
          omega
    · rw [matchBuy_nonpos _ _ (by omega)] at hq
      exact absurd hq hq0

theorem matchSell_rest_price {s : Order} {buys : List Order}
    (hlim : s.order_type = "limit") (hsorted : heapSorted buys)
    (hside : allSide buys true) (hq : 0 < (matchSell s buys).order.quantity) :
    ∀ y ∈ (matchSell s buys).heap, y.price < s.price := by
  induction buys generalizing s with
  | nil => simp [matchSell_nil]
  | cons b rest ih =>
    rcases List.pairwise_cons.1 hsorted with ⟨hhd, htl⟩
    have hsides : allSide rest true := fun x hx => hside x (List.mem_cons_of_mem _ hx)
    by_cases hq0 : 0 < s.quantity
    · by_cases hbr : s.order_type = "limit" ∧ b.price < s.price
      · rw [matchSell_break rest hq0 hbr]
        intro y hy
        rcases List.mem_cons.1 hy with rfl | hy
        · exact hbr.2
        · have : y.price ≤ b.price := buy_head_max (hside y (List.mem_cons_of_mem _ hy)) (hhd y hy)
          omega
      · by_cases hz : b.quantity - min s.quantity b.quantity = 0
        · rw [matchSell_pop rest hq0 hbr hz] at hq ⊢
          exact ih hlim htl hsides hq
        · rw [matchSell_fill_stop rest hq0 hbr hz] at hq
          have hmin : min s.quantity b.quantity = s.quantity := by
            rcases le_total s.quantity b.quantity with h | h
            · exact min_eq_left h
            · rw [min_eq_right h] at hz
              omega
          have : (0:Int) < s.quantity - min s.quantity b.quantity := hq
          omega
    · rw [matchSell_nonpos _ _ (by omega)] at hq
      exact absurd hq hq0

/-! ## Liquidity sums -/

theorem sumQty_nil : sumQty [] = 0 := rfl

theorem sumQty_cons (o : Order) (l : List Order) :
    sumQty (o :: l) = o.quantity + sumQty l := by
  simp [sumQty]

theorem tradesSum_nil : tradesSum [] = 0 := rfl

theorem tradesSum_cons (t : Trade) (l : List Trade) :
    tradesSum (t :: l) = t.quantity + tradesSum l := by
  simp [tradesSum]

theorem sumQty_nonneg {l : List Order} (h : allPos l) : 0 ≤ sumQty l := by
  induction l with
  | nil => simp [sumQty_nil]
  | cons o t ih =>
    have ho : 0 < o.quantity := h o (List.mem_cons_self _ _)
    have ht : 0 ≤ sumQty t := ih fun x hx => h x (List.mem_cons_of_mem _ hx)
    rw [sumQty_cons]
    omega

theorem matchBuy_exhaust {b : Order} {sells : List Order}
    (hm : ¬ b.order_type = "limit") (hpos : allPos sells)
    (hbig : sumQty sells < b.quantity) :
    (matchBuy b sells).heap = [] ∧
    tradesSum (matchBuy b sells).trades = sumQty sells ∧
    (matchBuy b sells).order.quantity = b.quantity - sumQty sells := by
  induction sells generalizing b with
  | nil => simp [matchBuy_nil, sumQty_nil, tradesSum_nil]
  | cons s rest ih =>
    have hs : 0 < s.quantity := hpos s (List.mem_cons_self _ _)
    have hrpos : allPos rest := fun x hx => hpos x (List.mem_cons_of_mem _ hx)
    have hrsum : 0 ≤ sumQty rest := sumQty_nonneg hrpos
    rw [sumQty_cons] at hbig
    have hq0 : 0 < b.quantity := by omega
    have hbr : ¬ (b.order_type = "limit" ∧ b.price < s.price) := fun h => hm h.1
    have hmin : min b.quantity s.quantity = s.quantity := min_eq_right (by omega)
    have hz : s.quantity - min b.quantity s.quantity = 0 := by
      rw [hmin]
      omega
    rw [matchBuy_pop rest hq0 hbr hz]
    have hbig2 : sumQty rest <
        (Order.mk b.order_id b.price (b.quantity - min b.quantity s.quantity) b.side
          b.order_type b.timestamp).quantity := by
      show sumQty rest < b.quantity - min b.quantity s.quantity
      rw [hmin]
      omega
    obtain ⟨h1, h2, h3⟩ := ih (b := { b with quantity := b.quantity - min b.quantity s.quantity })
      hm hrpos hbig2
    refine ⟨h1, ?_, ?_⟩
    · show min b.quantity s.quantity + tradesSum _ = _
      rw [h2, hmin, sumQty_cons]
    · rw [h3]
      show b.quantity - min b.quantity s.quantity - sumQty rest = b.quantity - (s.quantity + sumQty rest)
      rw [hmin]
      omega

theorem matchSell_exhaust {s : Order} {buys : List Order}
    (hm : ¬ s.order_type = "limit") (hpos : allPos buys)
    (hbig : sumQty buys < s.quantity) :
    (matchSell s buys).heap = [] ∧
    tradesSum (matchSell s buys).trades = sumQty buys ∧
    (matchSell s buys).order.quantity = s.quantity - sumQty buys := by
  induction buys generalizing s with
  | nil => simp [matchSell_nil, sumQty_nil, tradesSum_nil]
  | cons b rest ih =>
    have hb : 0 < b.quantity := hpos b (List.mem_cons_self _ _)
    have hrpos : allPos rest := fun x hx => hpos x (List.mem_cons_of_mem _ hx)
    have hrsum : 0 ≤ sumQty rest := sumQty_nonneg hrpos
    rw [sumQty_cons] at hbig
    have hq0 : 0 < s.quantity := by omega
    have hbr : ¬ (s.order_type = "limit" ∧ b.price < s.price) := fun h => hm h.1
    have hmin : min s.quantity b.quantity = b.quantity := min_eq_right (by omega)
    have hz : b.quantity - min s.quantity b.quantity = 0 := by
      rw [hmin]
      omega
    rw [matchSell_pop rest hq0 hbr hz]
    have hbig2 : sumQty rest <
        (Order.mk s.order_id s.price (s.quantity - min s.quantity b.quantity) s.side
          s.order_type s.timestamp).quantity := by
      show sumQty rest < s.quantity - min s.quantity b.quantity
      rw [hmin]
      omega
    obtain ⟨h1, h2, h3⟩ := ih (s := { s with quantity := s.quantity - min s.quantity b.quantity })
      hm hrpos hbig2
    refine ⟨h1, ?_, ?_⟩
    · show min s.quantity b.quantity + tradesSum _ = _
      rw [h2, hmin, sumQty_cons]
    · rw [h3]
      show s.quantity - min s.quantity b.quantity - sumQty rest = s.quantity - (b.quantity + sumQty rest)
      rw [hmin]
      omega

/-! ## The book invariant and its preservation by `add_order` -/

theorem addOrder_buy {book : Book} {o : Order} (ho : o.side = true) :
    addOrder book o =
      ⟨⟨if 0 < (matchBuy o book.sell_heap).order.quantity ∧
            (matchBuy o book.sell_heap).order.order_type = "limit"
         then heappush book.buy_heap (matchBuy o book.sell_heap).order
         else book.buy_heap,
        (matchBuy o book.sell_heap).heap,
        book.trade_log ++ (matchBuy o book.sell_heap).trades⟩,
       (matchBuy o book.sell_heap).trades,
       (matchBuy o book.sell_heap).updates⟩ := by
  simp [addOrder, ho]

theorem addOrder_sell {book : Book} {o : Order} (ho : o.side = false) :
    addOrder book o =
      ⟨⟨(matchSell o book.buy_heap).heap,
        if 0 < (matchSell o book.buy_heap).order.quantity ∧
            (matchSell o book.buy_heap).order.order_type = "limit"
         then heappush book.sell_heap (matchSell o book.buy_heap).order
         else book.sell_heap,
        book.trade_log ++ (matchSell o book.buy_heap).trades⟩,
       (matchSell o book.buy_heap).trades,
       (matchSell o book.buy_heap).updates⟩ := by
  simp [addOrder, ho]

theorem bookInv_empty : BookInv emptyBook := by
  refine ⟨?_, ?_, ?_, ?_, ?_, ?_, ?_⟩ <;>
    simp [heapSorted, emptyBook, allSide, allPos, crossFree, bidPrices, askPrices]

theorem addOrder_inv (book : Book) (o : Order) (h : BookInv book) :
    BookInv (addOrder book o).book := by
  obtain ⟨hbs, hss, hbt, hst, hbp, hsp, hcf⟩ := h
  by_cases ho : o.side = true
  · rw [addOrder_buy ho]
    obtain ⟨q, hshape⟩ := matchBuy_order_shape o book.sell_heap
    have hrsorted : heapSorted (matchBuy o book.sell_heap).heap := matchBuy_sorted _ hss
    have hrside : allSide (matchBuy o book.sell_heap).heap false := by
      intro y hy
      obtain ⟨s0, hs0, _, _, _, hside0, _⟩ := matchBuy_heap_from o book.sell_heap y hy
      rw [hside0]
      exact hst s0 hs0
    have hrpos : allPos (matchBuy o book.sell_heap).heap := matchBuy_allPos _ hsp
    by_cases hpush : 0 < (matchBuy o book.sell_heap).order.quantity ∧
        (matchBuy o book.sell_heap).order.order_type = "limit"
    · have hoside : (matchBuy o book.sell_heap).order.side = true := by
        rw [hshape]
        exact ho
      have hlim : o.order_type = "limit" := by
        have h2 := hpush.2
        rw [hshape] at h2
        exact h2
      refine ⟨?_, hrsorted, ?_, hrside, ?_, hrpos, ?_⟩
      · simp only [if_pos hpush]
        exact heappush_sorted hbs hbt hoside
      · simp only [if_pos hpush]
        exact heappush_allSide hbt hoside
      · simp only [if_pos hpush]
        intro x hx
        rcases mem_heappush.1 hx with rfl | hx
        · exact hpush.1
        · exact hbp x hx
      · simp only [if_pos hpush]
        intro pb hpb pa hpa
        simp only [askPrices] at hpa
        simp only [bidPrices] at hpb
        obtain ⟨y, hy, rfl⟩ := List.mem_map.1 hpa
        obtain ⟨x, hx, rfl⟩ := List.mem_map.1 hpb
        rcases mem_heappush.1 hx with rfl | hx
        · have hrp := matchBuy_rest_price hlim hss hst hpush.1 y hy
          rw [hshape]
          exact hrp
        · obtain ⟨s0, hs0, _, hp0, _, _, _⟩ := matchBuy_heap_from o book.sell_heap y hy
          rw [hp0]
          exact hcf x.price (List.mem_map_of_mem _ hx) s0.price (List.mem_map_of_mem _ hs0)
    · refine ⟨?_, hrsorted, ?_, hrside, ?_, hrpos, ?_⟩
      · simp only [if_neg hpush]
        exact hbs
      · simp only [if_neg hpush]
        exact hbt
      · simp only [if_neg hpush]
        exact hbp
      · simp only [if_neg hpush]
        intro pb hpb pa hpa
        simp only [askPrices] at hpa
        simp only [bidPrices] at hpb
        obtain ⟨y, hy, rfl⟩ := List.mem_map.1 hpa
        obtain ⟨x, hx, rfl⟩ := List.mem_map.1 hpb
        obtain ⟨s0, hs0, _, hp0, _, _, _⟩ := matchBuy_heap_from o book.sell_heap y hy
        rw [hp0]
        exact hcf x.price (List.mem_map_of_mem _ hx) s0.price (List.mem_map_of_mem _ hs0)
  · have ho' : o.side = false := by simpa using ho
    rw [addOrder_sell ho']
    obtain ⟨q, hshape⟩ := matchSell_order_shape o book.buy_heap
    have hrsorted : heapSorted (matchSell o book.buy_heap).heap := matchSell_sorted _ hbs
    have hrside : allSide (matchSell o book.buy_heap).heap true := by
      intro y hy
      obtain ⟨b0, hb0, _, _, _, hside0, _⟩ := matchSell_heap_from o book.buy_heap y hy
      rw [hside0]
      exact hbt b0 hb0
    have hrpos : allPos (matchSell o book.buy_heap).heap := matchSell_allPos _ hbp
    by_cases hpush : 0 < (matchSell o book.buy_heap).order.quantity ∧
        (matchSell o book.buy_heap).order.order_type = "limit"
    · have hoside : (matchSell o book.buy_heap).order.side = false := by
        rw [hshape]
        exact ho'
      have hlim : o.order_type = "limit" := by
        have h2 := hpush.2
        rw [hshape] at h2
        exact h2
      refine ⟨hrsorted, ?_, hrside, ?_, hrpos, ?_, ?_⟩
      · simp only [if_pos hpush]
        exact heappush_sorted hss hst hoside
      · simp only [if_pos hpush]
        exact heappush_allSide hst hoside
      · simp only [if_pos hpush]
        intro x hx
        rcases mem_heappush.1 hx with rfl | hx
        · exact hpush.1
        · exact hsp x hx
      · simp only [if_pos hpush]
        intro pb hpb pa hpa
        simp only [askPrices] at hpa
        simp only [bidPrices] at hpb
        obtain ⟨y, hy, rfl⟩ := List.mem_map.1 hpb
        obtain ⟨x, hx, rfl⟩ := List.mem_map.1 hpa
        obtain ⟨b0, hb0, _, hp0, _, _, _⟩ := matchSell_heap_from o book.buy_heap y hy
        rcases mem_heappush.1 hx with rfl | hx
        · have hrp := matchSell_rest_price hlim hbs hbt hpush.1 y hy
          rw [hshape]
          exact hrp
        · rw [hp0]
          exact hcf b0.price (List.mem_map_of_mem _ hb0) x.price (List.mem_map_of_mem _ hx)
    · refine ⟨hrsorted, ?_, hrside, ?_, hrpos, ?_, ?_⟩
      · simp only [if_neg hpush]
        exact hss
      · simp only [if_neg hpush]
        exact hst
      · simp only [if_neg hpush]
        exact hsp
      · intro pb hpb pa hpa
        simp only [if_neg hpush, askPrices] at hpa
        simp only [bidPrices] at hpb
        obtain ⟨y, hy, rfl⟩ := List.mem_map.1 hpb
        obtain ⟨x, hx, rfl⟩ := List.mem_map.1 hpa
        obtain ⟨b0, hb0, _, hp0, _, _, _⟩ := matchSell_heap_from o book.buy_heap y hy
        rw [hp0]
        exact hcf b0.price (List.mem_map_of_mem _ hb0) x.price (List.mem_map_of_mem _ hx)

theorem reachable_inv {book : Book} (h : Reachable book) : BookInv book := by
  induction h with
  | empty => exact bookInv_empty
  | step b o hb ih => exact addOrder_inv b o ih

/-! ## Aggregation helpers for `dump_book` and the best-of-book accessors -/

theorem addLevel_pos {acc : List (Int × Int)} {p q : Int}
    (hacc : ∀ kv ∈ acc, 1 ≤ kv.2) (hq : 1 ≤ q) :
    ∀ kv ∈ addLevel acc p q, 1 ≤ kv.2 := by
  induction acc with
  | nil =>
    intro kv hkv
    rcases List.mem_singleton.1 hkv with rfl
    exact hq
  | cons kv0 t ih =>
    intro kv hkv
    have h0 : 1 ≤ kv0.2 := hacc kv0 (List.mem_cons_self _ _)
    have ht : ∀ x ∈ t, 1 ≤ x.2 := fun x hx => hacc x (List.mem_cons_of_mem _ hx)
    by_cases hp : kv0.1 = p
    · rw [show addLevel (kv0 :: t) p q = (kv0.1, kv0.2 + q) :: t from by
        simp [addLevel, hp]] at hkv
      rcases List.mem_cons.1 hkv with rfl | hkv
      · show 1 ≤ kv0.2 + q
        omega
      · exact ht kv hkv
    · rw [show addLevel (kv0 :: t) p q = kv0 :: addLevel t p q from by
        simp [addLevel, hp]] at hkv
      rcases List.mem_cons.1 hkv with rfl | hkv
      · exact h0
      · exact ih ht kv hkv

theorem buildLevels_aux_pos (l : List Order) (acc : List (Int × Int))
    (hacc : ∀ kv ∈ acc, 1 ≤ kv.2) (hl : allPos l) :
    ∀ kv ∈ l.foldl (fun acc o => addLevel acc o.price o.quantity) acc, 1 ≤ kv.2 := by
  induction l generalizing acc with
  | nil => exact hacc
  | cons o t ih =>
    have ho : 0 < o.quantity := hl o (List.mem_cons_self _ _)
    exact ih (addLevel acc o.price o.quantity) (addLevel_pos hacc (by omega))
      (fun x hx => hl x (List.mem_cons_of_mem _ hx))

theorem buildLevels_pos {l : List Order} (h : allPos l) :
    ∀ kv ∈ buildLevels l, 1 ≤ kv.2 :=
  buildLevels_aux_pos l [] (by simp) h

theorem mem_insertLevelDesc {x kv : Int × Int} {l : List (Int × Int)}
    (h : kv ∈ insertLevelDesc x l) : kv = x ∨ kv ∈ l := by
  induction l with
  | nil =>
    simp [insertLevelDesc] at h
    exact Or.inl h
  | cons y t ih =>
    by_cases hc : y.1 < x.1
    · rw [show insertLevelDesc x (y :: t) = x :: y :: t from by
        simp [insertLevelDesc, hc]] at h
      rcases List.mem_cons.1 h with rfl | h
      · exact Or.inl rfl
      · exact Or.inr h
    · rw [show insertLevelDesc x (y :: t) = y :: insertLevelDesc x t from by
        simp [insertLevelDesc, hc]] at h
      rcases List.mem_cons.1 h with rfl | h
      · exact Or.inr (List.mem_cons_self _ _)
      · rcases ih h with h1 | h1
        · exact Or.inl h1
        · exact Or.inr (List.mem_cons_of_mem _ h1)

theorem mem_insertLevelAsc {x kv : Int × Int} {l : List (Int × Int)}
    (h : kv ∈ insertLevelAsc x l) : kv = x ∨ kv ∈ l := by
  induction l with
  | nil =>
    simp [insertLevelAsc] at h
    exact Or.inl h
  | cons y t ih =>
    by_cases hc : x.1 < y.1
    · rw [show insertLevelAsc x (y :: t) = x :: y :: t from by
        simp [insertLevelAsc, hc]] at h
      rcases List.mem_cons.1 h with rfl | h
      · exact Or.inl rfl
      · exact Or.inr h
    · rw [show insertLevelAsc x (y :: t) = y :: insertLevelAsc x t from by
        simp [insertLevelAsc, hc]] at h
      rcases List.mem_cons.1 h with rfl | h
      · exact Or.inr (List.mem_cons_self _ _)
      · rcases ih h with h1 | h1
        · exact Or.inl h1
        · exact Or.inr (List.mem_cons_of_mem _ h1)

theorem mem_sortLevelsDesc {kv : Int × Int} {l : List (Int × Int)}
    (h : kv ∈ sortLevelsDesc l) : kv ∈ l := by
  induction l with
  | nil => simp [sortLevelsDesc] at h
  | cons y t ih =>
    rcases mem_insertLevelDesc (show kv ∈ insertLevelDesc y (sortLevelsDesc t) from h) with
      rfl | h1
    · exact List.mem_cons_self _ _
    · exact List.mem_cons_of_mem _ (ih h1)

theorem mem_sortLevelsAsc {kv : Int × Int} {l : List (Int × Int)}
    (h : kv ∈ sortLevelsAsc l) : kv ∈ l := by
  induction l with
  | nil => simp [sortLevelsAsc] at h
  | cons y t ih =>
    rcases mem_insertLevelAsc (show kv ∈ insertLevelAsc y (sortLevelsAsc t) from h) with
      rfl | h1
    · exact List.mem_cons_self _ _
    · exact List.mem_cons_of_mem _ (ih h1)

theorem getBestBid_mem {book : Book} {o : Order} (h : getBestBid book = some o) :
    o ∈ book.buy_heap := by
  unfold getBestBid at h
  cases hb : book.buy_heap with
  | nil =>
    rw [hb] at h
    simp at h
  | cons x t =>
    rw [hb] at h
    simp at h
    rw [← h]
    exact List.mem_cons_self _ _

theorem getBestAsk_mem {book : Book} {o : Order} (h : getBestAsk book = some o) :
    o ∈ book.sell_heap := by
  unfold getBestAsk at h
  cases hb : book.sell_heap with
  | nil =>
    rw [hb] at h
    simp at h
  | cons x t =>
    rw [hb] at h
    simp at h
    rw [← h]
    exact List.mem_cons_self _ _

/-- C1 (confirmed).  For every reachable order book and every submitted
order, after `add_order` returns, either the bid side or the ask side is
empty, or the maximum resting bid price is strictly less than the minimum
resting ask price: we prove the equivalent pairwise form that every resting
bid price is strictly below every resting ask price, so a crossing book is
never observable after `add_order` returns. -/
theorem claim_C1_no_crossing (book : Book) (o : Order) (h : Reachable book) :
    ∀ pb ∈ bidPrices (addOrder book o).book, ∀ pa ∈ askPrices (addOrder book o).book,
      pb < pa :=
  (reachable_inv (Reachable.step book o h)).2.2.2.2.2.2

/-- Witness for C1: in the reachable book with bid 100 and ask 101, after a
further submit the resting bid price 100 is strictly below the resting ask
price 101. -/
theorem claim_C1_no_crossing_witness : (100 : Int) < 101 :=
  claim_C1_no_crossing bookBidAsk oBid99
    (Reachable.step _ _ (Reachable.step _ _ Reachable.empty))
    100 (by decide) 101 (by decide)

/-! ## Claim C10 -/

/-- C10 (confirmed).  On every reachable book (any sequence of `add_order`
calls with arbitrary, even unvalidated, input orders), every order resting
on `buy_heap` or `sell_heap` has strictly positive quantity; consequently
`get_best_bid` and `get_best_ask` never return an order with quantity ≤ 0,
and every `(price, quantity)` level produced by `dump_book` has
quantity ≥ 1. -/
theorem claim_C10_positive_quantities (book : Book) (h : Reachable book) :
    allPos book.buy_heap ∧ allPos book.sell_heap ∧
    (∀ o, getBestBid book = some o → 0 < o.quantity) ∧
    (∀ o, getBestAsk book = some o → 0 < o.quantity) ∧
    (∀ kv ∈ (dumpBook book).1, 1 ≤ kv.2) ∧
    (∀ kv ∈ (dumpBook book).2, 1 ≤ kv.2) := by
  obtain ⟨_, _, _, _, hbp, hsp, _⟩ := reachable_inv h
  refine ⟨hbp, hsp, ?_, ?_, ?_, ?_⟩
  · intro o ho
    exact hbp o (getBestBid_mem ho)
  · intro o ho
    exact hsp o (getBestAsk_mem ho)
  · intro kv hkv
    exact buildLevels_pos hbp kv (mem_sortLevelsDesc hkv)
  · intro kv hkv
    exact buildLevels_pos hsp kv (mem_sortLevelsAsc hkv)

/-- Witness for C10: on the reachable book with two resting sells at price
10, the best ask returned is the first resting order and its quantity is
positive, and the dumped ask level `(10, 5)` has quantity ≥ 1. -/
theorem claim_C10_positive_quantities_witness :
    (0 : Int) < Order.quantity ⟨1, 10, 2, false, "limit", 1⟩ ∧ (1 : Int) ≤ 5 := by
  have h := claim_C10_positive_quantities bookTwoSells
    (Reachable.step _ _ (Reachable.step _ _ Reachable.empty))
  refine ⟨h.2.2.2.1 ⟨1, 10, 2, false, "limit", 1⟩ (by decide), ?_⟩
  have h2 := h.2.2.2.2.2 (10, 5) (by decide)
  exact h2

/-! ## Claim C3 -/

/-- C3 (corrected) counterexample.  The specification demands that a LIMIT
order with price ≤ 0 fail with `InvalidOrder` and leave the book unchanged;
`add_order` performs no validation at all: it returns normally and rests the
order, changing the book. -/
theorem claim_C3_counterexample :
    (addOrder emptyBook oBadPrice).book ≠ emptyBook ∧
    (addOrder emptyBook oBadPrice).book.buy_heap = [oBadPrice] := by
  constructor
  · decide
  · decide

/-- C3 (corrected) amended claim.  `add_order` never fails and performs no
validation; an order with `quantity ≤ 0` (of either side and any type) is a
silent no-op: the book is unchanged, no trades are produced and no
notifications are emitted.  Orders with `price ≤ 0` or an order type outside
the enumerated set are not rejected either (see the counterexample: a LIMIT
order with negative price rests normally). -/
theorem claim_C3_amended (book : Book) (o : Order) (h : o.quantity ≤ 0) :
    addOrder book o = ⟨book, [], []⟩ := by
  by_cases ho : o.side = true
  · rw [addOrder_buy ho, matchBuy_nonpos _ _ h]
    have hc : ¬ (0 < (⟨o, book.sell_heap, [], []⟩ : MatchResult).order.quantity ∧
        (⟨o, book.sell_heap, [], []⟩ : MatchResult).order.order_type = "limit") := by
      intro hc
      have : 0 < o.quantity := hc.1
      omega
    simp [hc]
  · have ho' : o.side = false := by simpa using ho
    rw [addOrder_sell ho', matchSell_nonpos _ _ h]
    have hc : ¬ (0 < (⟨o, book.buy_heap, [], []⟩ : MatchResult).order.quantity ∧
        (⟨o, book.buy_heap, [], []⟩ : MatchResult).order.order_type = "limit") := by
      intro hc
      have : 0 < o.quantity := hc.1
      omega
    simp [hc]

/-- Witness for the amended C3: the negative-quantity order `oNegQty` leaves
the two-sell book untouched and emits nothing. -/
theorem claim_C3_amended_witness :
    addOrder bookTwoSells oNegQty = ⟨bookTwoSells, [], []⟩ :=
  claim_C3_amended bookTwoSells oNegQty (by decide)

/-! ## Claim C4 -/

/-- C4 (corrected) counterexample.  The specification demands that a LIMIT
order that rests emit exactly one `LevelUpdate` for the incoming side;
the code rests the order (here on an empty book, so remaining = initial
quantity) but emits no update at all: `add_order` contains no notification
call on the rest path. -/
theorem claim_C4_counterexample :
    (addOrder emptyBook oLoneBid).book.buy_heap = [oLoneBid] ∧
    (addOrder emptyBook oLoneBid).updates = [] := by
  constructor
  · decide
  · decide

/-- C4 (corrected) amended claim.  A LIMIT order with positive remaining
quantity after matching (including the no-match case) does rest on its side
of the book, keeping its id and price, but NO `LevelUpdate` is emitted for
the incoming side: every update emitted by the call is for the opposite
(resting) side. -/
theorem claim_C4_amended (book : Book) (o : Order) (hl : o.order_type = "limit") :
    (o.side = true → 0 < (matchBuy o book.sell_heap).order.quantity →
      (matchBuy o book.sell_heap).order ∈ (addOrder book o).book.buy_heap ∧
      (matchBuy o book.sell_heap).order.price = o.price ∧
      (matchBuy o book.sell_heap).order.order_id = o.order_id ∧
      ∀ u ∈ (addOrder book o).updates, u.side = false) ∧
    (o.side = false → 0 < (matchSell o book.buy_heap).order.quantity →
      (matchSell o book.buy_heap).order ∈ (addOrder book o).book.sell_heap ∧
      (matchSell o book.buy_heap).order.price = o.price ∧
      (matchSell o book.buy_heap).order.order_id = o.order_id ∧
      ∀ u ∈ (addOrder book o).updates, u.side = true) := by
  constructor
  · intro ho hq
    obtain ⟨q, hshape⟩ := matchBuy_order_shape o book.sell_heap
    have hcond : 0 < (matchBuy o book.sell_heap).order.quantity ∧
        (matchBuy o book.sell_heap).order.order_type = "limit" := by
      refine ⟨hq, ?_⟩
      rw [hshape]
      exact hl
    rw [addOrder_buy ho]
    refine ⟨?_, ?_, ?_, ?_⟩
    · show (matchBuy o book.sell_heap).order ∈
        (if 0 < (matchBuy o book.sell_heap).order.quantity ∧
            (matchBuy o book.sell_heap).order.order_type = "limit"
         then heappush book.buy_heap (matchBuy o book.sell_heap).order
         else book.buy_heap)
      rw [if_pos hcond]
      exact mem_heappush.2 (Or.inl rfl)
    · rw [hshape]
    · rw [hshape]
    · exact matchBuy_updates_side o book.sell_heap
  · intro ho hq
    obtain ⟨q, hshape⟩ := matchSell_order_shape o book.buy_heap
    have hcond : 0 < (matchSell o book.buy_heap).order.quantity ∧
        (matchSell o book.buy_heap).order.order_type = "limit" := by
      refine ⟨hq, ?_⟩
      rw [hshape]
      exact hl
    rw [addOrder_sell ho]
    refine ⟨?_, ?_, ?_, ?_⟩
    · show (matchSell o book.buy_heap).order ∈
        (if 0 < (matchSell o book.buy_heap).order.quantity ∧
            (matchSell o book.buy_heap).order.order_type = "limit"
         then heappush book.sell_heap (matchSell o book.buy_heap).order
         else book.sell_heap)
      rw [if_pos hcond]
      exact mem_heappush.2 (Or.inl rfl)
    · rw [hshape]
    · rw [hshape]
    · exact matchSell_updates_side o book.buy_heap

/-- Witness for the amended C4: `oBid100` submitted to the empty book rests
(remaining = initial quantity) and keeps its price. -/
theorem claim_C4_amended_witness :
    (matchBuy oBid100 emptyBook.sell_heap).order ∈
      (addOrder emptyBook oBid100).book.buy_heap ∧
    (matchBuy oBid100 emptyBook.sell_heap).order.price = oBid100.price := by
  have h := (claim_C4_amended emptyBook oBid100 (by decide)).1 (by decide) (by decide)
  exact ⟨h.1, h.2.1⟩

/-! ## Claim C5 -/

/-- C5 (corrected) counterexample.  A buy for 5 against the level
`{10: [2, 3]}` consumes two resting orders and emits TWO updates with the
same `(price, side)` pair `(10, SELL)` within one `add_order` call: the code
notifies per trade and performs no coalescing. -/
theorem claim_C5_counterexample :
    (addOrder bookTwoSells oBuyFive).updates = [⟨10, 0, false⟩, ⟨10, 0, false⟩] := by
  decide

/-- C5 (corrected) amended claim.  `add_order` emits exactly one
`LevelUpdate` per trade executed in the call (no coalescing): the number of
updates delivered equals the number of trades, so several updates for the
same `(price, side)` pair can be observed in a single call. -/
theorem claim_C5_amended (book : Book) (o : Order) :
    (addOrder book o).updates.length = (addOrder book o).trades.length := by
  by_cases ho : o.side = true
  · rw [addOrder_buy ho]
    exact matchBuy_updates_length o book.sell_heap
  · rw [addOrder_sell (by simpa using ho)]
    exact matchSell_updates_length o book.buy_heap

/-! ## Claim C7 -/

/-- C7 (confirmed).  A MARKET order whose quantity exceeds the total resting
quantity of the opposite side (on a reachable book) produces trades whose
quantities sum to exactly the available opposite-side liquidity, empties
that side, rests nothing (its own heap is unchanged), and emits no level
update for the incoming side (all updates are for the opposite side). -/
theorem claim_C7_market_exhausts (book : Book) (o : Order) (h : Reachable book)
    (hm : o.order_type = "market") :
    (o.side = true → sumQty book.sell_heap < o.quantity →
      (addOrder book o).book.sell_heap = [] ∧
      tradesSum (addOrder book o).trades = sumQty book.sell_heap ∧
      (addOrder book o).book.buy_heap = book.buy_heap ∧
      ∀ u ∈ (addOrder book o).updates, u.side = false) ∧
    (o.side = false → sumQty book.buy_heap < o.quantity →
      (addOrder book o).book.buy_heap = [] ∧
      tradesSum (addOrder book o).trades = sumQty book.buy_heap ∧
      (addOrder book o).book.sell_heap = book.sell_heap ∧
      ∀ u ∈ (addOrder book o).updates, u.side = true) := by
  obtain ⟨_, _, _, _, hbp, hsp, _⟩ := reachable_inv h
  have hml : ¬ o.order_type = "limit" := by
    rw [hm]
    intro hcontra
    simp at hcontra
  constructor
  · intro ho hbig
    obtain ⟨h1, h2, h3⟩ := matchBuy_exhaust (b := o) hml hsp hbig
    obtain ⟨q, hshape⟩ := matchBuy_order_shape o book.sell_heap
    have hcond : ¬ (0 < (matchBuy o book.sell_heap).order.quantity ∧
        (matchBuy o book.sell_heap).order.order_type = "limit") := by
      intro hc
      have hq2 := hc.2
      rw [hshape] at hq2
      exact hml hq2
    rw [addOrder_buy ho]
    refine ⟨h1, h2, ?_, matchBuy_updates_side o book.sell_heap⟩
    show (if 0 < (matchBuy o book.sell_heap).order.quantity ∧
            (matchBuy o book.sell_heap).order.order_type = "limit"
         then heappush book.buy_heap (matchBuy o book.sell_heap).order
         else book.buy_heap) = book.buy_heap
    rw [if_neg hcond]
  · intro ho hbig
    have ho' : o.side = false := ho
    obtain ⟨h1, h2, h3⟩ := matchSell_exhaust (s := o) hml hbp hbig
    obtain ⟨q, hshape⟩ := matchSell_order_shape o book.buy_heap
    have hcond : ¬ (0 < (matchSell o book.buy_heap).order.quantity ∧
        (matchSell o book.buy_heap).order.order_type = "limit") := by
      intro hc
      have hq2 := hc.2
      rw [hshape] at hq2
      exact hml hq2
    rw [addOrder_sell ho']
    refine ⟨h1, h2, ?_, matchSell_updates_side o book.buy_heap⟩
    show (if 0 < (matchSell o book.buy_heap).order.quantity ∧
            (matchSell o book.buy_heap).order.order_type = "limit"
         then heappush book.sell_heap (matchSell o book.buy_heap).order
         else book.sell_heap) = book.sell_heap
    rw [if_neg hcond]

/-- Witness for C7: scenario S2 of the specification — a market buy for 10
against asks `{101: 3, 102: 2}` empties the ask side and trades exactly the
available liquidity 5; the bid side stays empty (nothing rests). -/
theorem claim_C7_market_exhausts_witness :
    (addOrder bookS2 oMarketTen).book.sell_heap = [] ∧
    tradesSum (addOrder bookS2 oMarketTen).trades = sumQty bookS2.sell_heap ∧
    (addOrder bookS2 oMarketTen).book.buy_heap = bookS2.buy_heap := by
  have h := (claim_C7_market_exhausts bookS2 oMarketTen
    (Reachable.step _ _ (Reachable.step _ _ Reachable.empty)) (by decide)).1
    (by decide) (by decide)
  exact ⟨h.1, h.2.1, h.2.2.1⟩

/-! ## Claim C8 -/

/-- C8 (confirmed).  Every trade produced by `add_order` carries the price of
the resting (maker) order: for a buy submission the trade price and
`sell_order_id` come from one and the same resting sell, and symmetrically
for a sell submission — including when two LIMIT orders cross with a price
gap, where the taker trades at the maker price, not its own. -/
theorem claim_C8_maker_price (book : Book) (o : Order) :
    ∀ t ∈ (addOrder book o).trades,
      (o.side = true → ∃ s ∈ book.sell_heap,
        t.sell_order_id = s.order_id ∧ t.price = s.price ∧
        t.buy_order_id = o.order_id) ∧
      (o.side = false → ∃ b ∈ book.buy_heap,
        t.buy_order_id = b.order_id ∧ t.price = b.price ∧
        t.sell_order_id = o.order_id) := by
  intro t ht
  constructor
  · intro ho
    rw [addOrder_buy ho] at ht
    exact matchBuy_trades_maker o book.sell_heap t ht
  · intro ho
    rw [addOrder_sell ho] at ht
    exact matchSell_trades_maker o book.buy_heap t ht

/-- Witness for C8: the sell `oSellLow` (limit 99) crossing the resting bid
`oBigBid` (limit 100) trades at the maker price 100, which is the resting
order's price. -/
theorem claim_C8_maker_price_witness :
    (⟨1, 2, 100, 4⟩ : Trade).price = oBigBid.price := by
  obtain ⟨b, hb, h1, h2, h3⟩ :=
    (claim_C8_maker_price bookBigBid oSellLow ⟨1, 2, 100, 4⟩ (by decide)).2 (by decide)
  have hmem : b ∈ [oBigBid] := hb
  have hbeq : b = oBigBid := List.mem_singleton.1 hmem
  rw [h2, hbeq]

/-! ## Claim C6: time priority within a price level -/

theorem matchBuy_heap_ids {b : Order} {sells : List Order} :
    ∀ r ∈ (matchBuy b sells).heap, ∃ s0 ∈ sells, r.order_id = s0.order_id := by
  intro r hr
  obtain ⟨s0, hs0, h1, _, _, _, _⟩ := matchBuy_heap_from b sells r hr
  exact ⟨s0, hs0, h1⟩

theorem matchSell_heap_ids {s : Order} {buys : List Order} :
    ∀ r ∈ (matchSell s buys).heap, ∃ b0 ∈ buys, r.order_id = b0.order_id := by
  intro r hr
  obtain ⟨b0, hb0, h1, _, _, _, _⟩ := matchSell_heap_from s buys r hr
  exact ⟨b0, hb0, h1⟩

theorem decomp_y_mem_tail {s x y : Order} {rest l1 l2 l3 : List Order}
    (h : s :: rest = l1 ++ x :: l2 ++ y :: l3) : y ∈ rest := by
  cases l1 with
  | nil =>
    simp at h
    rcases h with ⟨h1, h2⟩
    rw [h2]
    simp
  | cons a t =>
    simp at h
    rcases h with ⟨h1, h2⟩
    rw [h2]
    simp

theorem lt_of_same_price {x y : Order} (hp : x.price = y.price)
    (ht : x.timestamp < y.timestamp) : Order.lt x y = true := by
  rw [lt_true_iff]
  exact Or.inr ⟨hp, ht⟩

theorem sorted_split {l : List Order} (hs : heapSorted l) {x y : Order}
    (hx : x ∈ l) (hy : y ∈ l) (hlt : Order.lt x y = true) :
    ∃ l1 l2 l3, l = l1 ++ x :: l2 ++ y :: l3 := by
  obtain ⟨a, b, rfl⟩ := List.append_of_mem hx
  have hxy : x ≠ y := by
    intro h
    rw [h] at hlt
    have h2 := lt_asymm rfl hlt
    rw [hlt] at h2
    exact Bool.noConfusion h2
  rcases List.mem_append.1 hy with hya | hyxb
  · have h3 : heapLE y x :=
      (List.pairwise_append.1 hs).2.2 y hya x (List.mem_cons_self _ _)
    rw [show Order.lt x y = false from h3] at hlt
    exact Bool.noConfusion hlt
  · rcases List.mem_cons.1 hyxb with heq | hyb
    · exact absurd heq.symm hxy
    · obtain ⟨c, d, rfl⟩ := List.append_of_mem hyb
      exact ⟨a, c, d, by simp⟩

theorem matchBuy_fifo : ∀ (sells : List Order) (b : Order) (l1 l2 l3 : List Order)
    (x y : Order), sells = l1 ++ x :: l2 ++ y :: l3 →
    (sells.map Order.order_id).Nodup →
    (∃ t ∈ (matchBuy b sells).trades, t.sell_order_id = y.order_id) →
    ∀ r ∈ (matchBuy b sells).heap, r.order_id ≠ x.order_id := by
  intro sells
  induction sells with
  | nil =>
    intro b l1 l2 l3 x y hdec hids ht r hr
    cases l1 <;> simp at hdec
  | cons s rest ih =>
    intro b l1 l2 l3 x y hdec hids ht r hr
    have hyrest : y ∈ rest := decomp_y_mem_tail hdec
    have hids2 : (s.order_id :: rest.map Order.order_id).Nodup := hids
    rcases List.nodup_cons.1 hids2 with ⟨hsnot, hrestnodup⟩
    by_cases hq0 : 0 < b.quantity
    · by_cases hbr : b.order_type = "limit" ∧ b.price < s.price
      · rw [matchBuy_break rest hq0 hbr] at ht
        rcases ht with ⟨t, htm, _⟩
        simp at htm
      · by_cases hz : s.quantity - min b.quantity s.quantity = 0
        · rw [matchBuy_pop rest hq0 hbr hz] at ht hr
          cases l1 with
          | nil =>
            simp at hdec
            rcases hdec with ⟨hsx, hrest⟩
            intro heq
            obtain ⟨s0, hs0, hid⟩ := matchBuy_heap_ids r hr
            have : s.order_id ∈ rest.map Order.order_id := by
              rw [hsx, ← heq, hid]
              exact List.mem_map_of_mem _ hs0
            exact hsnot this
          | cons a t1 =>
            simp at hdec
            rcases hdec with ⟨hsa, hrest⟩
            rcases ht with ⟨t, htm, hty⟩
            rcases List.mem_cons.1 htm with rfl | htm
            · simp at hty
              have hmem : y.order_id ∈ rest.map Order.order_id :=
                List.mem_map_of_mem _ hyrest
              rw [← hty] at hmem
              exact absurd hmem hsnot
            · exact ih _ t1 l2 l3 x y (by simpa using hrest) hrestnodup ⟨t, htm, hty⟩ r hr
        · rw [matchBuy_fill_stop rest hq0 hbr hz] at ht hr
          rcases ht with ⟨t, htm, hty⟩
          rcases List.mem_singleton.1 htm with rfl
          simp at hty
          have hmem : y.order_id ∈ rest.map Order.order_id :=
            List.mem_map_of_mem _ hyrest
          rw [← hty] at hmem
          exact absurd hmem hsnot
    · rw [matchBuy_nonpos _ _ (by omega)] at ht
      rcases ht with ⟨t, htm, _⟩
      simp at htm

theorem matchSell_fifo : ∀ (buys : List Order) (s : Order) (l1 l2 l3 : List Order)
    (x y : Order), buys = l1 ++ x :: l2 ++ y :: l3 →
    (buys.map Order.order_id).Nodup →
    (∃ t ∈ (matchSell s buys).trades, t.buy_order_id = y.order_id) →
    ∀ r ∈ (matchSell s buys).heap, r.order_id ≠ x.order_id := by
  intro buys
  induction buys with
  | nil =>
    intro s l1 l2 l3 x y hdec hids ht r hr
    cases l1 <;> simp at hdec
  | cons b rest ih =>
    intro s l1 l2 l3 x y hdec hids ht r hr
    have hyrest : y ∈ rest := decomp_y_mem_tail hdec
    have hids2 : (b.order_id :: rest.map Order.order_id).Nodup := hids
    rcases List.nodup_cons.1 hids2 with ⟨hbnot, hrestnodup⟩
    by_cases hq0 : 0 < s.quantity
    · by_cases hbr : s.order_type = "limit" ∧ b.price < s.price
      · rw [matchSell_break rest hq0 hbr] at ht
        rcases ht with ⟨t, htm, _⟩
        simp at htm
      · by_cases hz : b.quantity - min s.quantity b.quantity = 0
        · rw [matchSell_pop rest hq0 hbr hz] at ht hr
          cases l1 with
          | nil =>
            simp at hdec
            rcases hdec with ⟨hbx, hrest⟩
            intro heq
            obtain ⟨b0, hb0, hid⟩ := matchSell_heap_ids r hr
            have : b.order_id ∈ rest.map Order.order_id := by
              rw [hbx, ← heq, hid]
              exact List.mem_map_of_mem _ hb0
            exact hbnot this
          | cons a t1 =>
            simp at hdec
            rcases hdec with ⟨hba, hrest⟩
            rcases ht with ⟨t, htm, hty⟩
            rcases List.mem_cons.1 htm with rfl | htm
            · simp at hty
              have hmem : y.order_id ∈ rest.map Order.order_id :=
                List.mem_map_of_mem _ hyrest
              rw [← hty] at hmem
              exact absurd hmem hbnot
            · exact ih _ t1 l2 l3 x y (by simpa using hrest) hrestnodup ⟨t, htm, hty⟩ r hr
        · rw [matchSell_fill_stop rest hq0 hbr hz] at ht hr
          rcases ht with ⟨t, htm, hty⟩
          rcases List.mem_singleton.1 htm with rfl
          simp at hty
          have hmem : y.order_id ∈ rest.map Order.order_id :=
            List.mem_map_of_mem _ hyrest
          rw [← hty] at hmem
          exact absurd hmem hbnot
    · rw [matchSell_nonpos _ _ (by omega)] at ht
      rcases ht with ⟨t, htm, _⟩
      simp at htm

/-- C6 (confirmed).  Within a price level, matching serves resting orders in
strictly ascending arrival order (arrival is modelled by the creation
timestamp, which `Order.__lt__` uses to break price ties; order ids are
assumed pairwise distinct, as the specification's monotonically increasing
id counter guarantees): on any reachable book, if two orders `x` and `y`
rest at the same price on the side being consumed with `x` arrived earlier,
and `y` receives any fill during a submit, then after that submit `x` no
longer rests — it was fully consumed before `y` was touched. -/
theorem claim_C6_time_priority (book : Book) (o : Order) (h : Reachable book)
    (x y : Order) (hp : x.price = y.price) (htp : x.timestamp < y.timestamp) :
    (o.side = true → x ∈ book.sell_heap → y ∈ book.sell_heap →
      (book.sell_heap.map Order.order_id).Nodup →
      (∃ t ∈ (addOrder book o).trades, t.sell_order_id = y.order_id) →
      ∀ r ∈ (addOrder book o).book.sell_heap, r.order_id ≠ x.order_id) ∧
    (o.side = false → x ∈ book.buy_heap → y ∈ book.buy_heap →
      (book.buy_heap.map Order.order_id).Nodup →
      (∃ t ∈ (addOrder book o).trades, t.buy_order_id = y.order_id) →
      ∀ r ∈ (addOrder book o).book.buy_heap, r.order_id ≠ x.order_id) := by
  obtain ⟨hbs, hss, _, _, _, _, _⟩ := reachable_inv h
  constructor
  · intro ho hx hy hnodup ht
    obtain ⟨l1, l2, l3, hdec⟩ := sorted_split hss hx hy (lt_of_same_price hp htp)
    rw [addOrder_buy ho] at ht ⊢
    exact matchBuy_fifo book.sell_heap o l1 l2 l3 x y hdec hnodup ht
  · intro ho hx hy hnodup ht
    obtain ⟨l1, l2, l3, hdec⟩ := sorted_split hbs hx hy (lt_of_same_price hp htp)
    rw [addOrder_sell ho] at ht ⊢
    exact matchSell_fifo book.buy_heap o l1 l2 l3 x y hdec hnodup ht

/-- Witness for C6: a buy for 4 against the level `{10: [oS1 (2, first),
oS2 (3, second)]}` fills `oS2` only after `oS1` is fully consumed; the one
order left resting (the remainder of `oS2`, id 2) is not `oS1` (id 1). -/
theorem claim_C6_time_priority_witness :
    Order.order_id ⟨2, 10, 1, false, "limit", 2⟩ ≠ Order.order_id oS1 := by
  have h := (claim_C6_time_priority bookTwoSells oBuyFour
    (Reachable.step _ _ (Reachable.step _ _ Reachable.empty)) oS1 oS2
    (by decide) (by decide)).1
    (by decide) (by decide) (by decide) (by decide)
    ⟨⟨3, 2, 10, 2⟩, by decide, by decide⟩
  exact h ⟨2, 10, 1, false, "limit", 2⟩ (by decide)

/-! ## Claim C2: what each LevelUpdate actually carries -/

theorem matchBuy_updates_spec : ∀ (sells : List Order) (b : Order),
    (sells.map Order.order_id).Nodup →
    List.Forall₂ (fun (t : Trade) (u : Update) =>
        u.side = false ∧ u.price = t.price ∧
        (u.quantity = 0 →
          ∀ r ∈ (matchBuy b sells).heap, r.order_id ≠ t.sell_order_id) ∧
        (u.quantity ≠ 0 → ∃ r ∈ (matchBuy b sells).heap,
          r.order_id = t.sell_order_id ∧ r.price = u.price ∧
          r.quantity = u.quantity))
      (matchBuy b sells).trades (matchBuy b sells).updates := by
  intro sells
  induction sells with
  | nil =>
    intro b hids
    rw [matchBuy_nil]
    exact List.Forall₂.nil
  | cons s rest ih =>
    intro b hids
    have hids2 : (s.order_id :: rest.map Order.order_id).Nodup := hids
    rcases List.nodup_cons.1 hids2 with ⟨hsnot, hrestnodup⟩
    by_cases hq0 : 0 < b.quantity
    · by_cases hbr : b.order_type = "limit" ∧ b.price < s.price
      · rw [matchBuy_break rest hq0 hbr]
        exact List.Forall₂.nil
      · by_cases hz : s.quantity - min b.quantity s.quantity = 0
        · rw [matchBuy_pop rest hq0 hbr hz]
          refine List.Forall₂.cons ⟨rfl, rfl, ?_, ?_⟩ (ih _ hrestnodup)
          · intro _ r hr heq
            obtain ⟨s0, hs0, hid⟩ := matchBuy_heap_ids r hr
            have : s.order_id ∈ rest.map Order.order_id := by
              rw [show Trade.sell_order_id ⟨b.order_id, s.order_id, s.price,
                    min b.quantity s.quantity⟩ = s.order_id from rfl] at heq
              rw [← heq, hid]
              exact List.mem_map_of_mem _ hs0
            exact hsnot this
          · intro hcontra
            exact absurd rfl hcontra
        · rw [matchBuy_fill_stop rest hq0 hbr hz]
          refine List.Forall₂.cons ⟨rfl, rfl, ?_, ?_⟩ List.Forall₂.nil
          · intro h0
            exact absurd h0 hz
          · intro _
            exact ⟨{ s with quantity := s.quantity - min b.quantity s.quantity },
              List.mem_cons_self _ _, rfl, rfl, rfl⟩
    · rw [matchBuy_nonpos _ _ (by omega)]
      exact List.Forall₂.nil

theorem matchSell_updates_spec : ∀ (buys : List Order) (s : Order),
    (buys.map Order.order_id).Nodup →
    List.Forall₂ (fun (t : Trade) (u : Update) =>
        u.side = true ∧ u.price = t.price ∧
        (u.quantity = 0 →
          ∀ r ∈ (matchSell s buys).heap, r.order_id ≠ t.buy_order_id) ∧
        (u.quantity ≠ 0 → ∃ r ∈ (matchSell s buys).heap,
          r.order_id = t.buy_order_id ∧ r.price = u.price ∧
          r.quantity = u.quantity))
      (matchSell s buys).trades (matchSell s buys).updates := by
  intro buys
  induction buys with
  | nil =>
    intro s hids
    rw [matchSell_nil]
    exact List.Forall₂.nil
  | cons b rest ih =>
    intro s hids
    have hids2 : (b.order_id :: rest.map Order.order_id).Nodup := hids
    rcases List.nodup_cons.1 hids2 with ⟨hbnot, hrestnodup⟩
    by_cases hq0 : 0 < s.quantity
    · by_cases hbr : s.order_type = "limit" ∧ b.price < s.price
      · rw [matchSell_break rest hq0 hbr]
        exact List.Forall₂.nil
      · by_cases hz : b.quantity - min s.quantity b.quantity = 0
        · rw [matchSell_pop rest hq0 hbr hz]
          refine List.Forall₂.cons ⟨rfl, rfl, ?_, ?_⟩ (ih _ hrestnodup)
          · intro _ r hr heq
            obtain ⟨b0, hb0, hid⟩ := matchSell_heap_ids r hr
            have : b.order_id ∈ rest.map Order.order_id := by
              rw [show Trade.buy_order_id ⟨b.order_id, s.order_id, b.price,
                    min s.quantity b.quantity⟩ = b.order_id from rfl] at heq
              rw [← heq, hid]
              exact List.mem_map_of_mem _ hb0
            exact hbnot this
          · intro hcontra
            exact absurd rfl hcontra
        · rw [matchSell_fill_stop rest hq0 hbr hz]
          refine List.Forall₂.cons ⟨rfl, rfl, ?_, ?_⟩ List.Forall₂.nil
          · intro h0
            exact absurd h0 hz
          · intro _
            exact ⟨{ b with quantity := b.quantity - min s.quantity b.quantity },
              List.mem_cons_self _ _, rfl, rfl, rfl⟩
    · rw [matchSell_nonpos _ _ (by omega)]
      exact List.Forall₂.nil

/-- C2 (corrected) counterexample.  A buy for 2 against the level
`{10: [2, 3]}` fully consumes the first resting sell and emits
`LevelUpdate(10, 0, SELL)` although the price level is NOT empty: the order
of id 2 still rests at price 10 with quantity 3 (aggregate 3 ≠ 0).  The
emitted `new_quantity` is the matched order's remaining quantity, not the
level aggregate. -/
theorem claim_C2_counterexample :
    (addOrder bookTwoSells oBuyTwo).updates = [⟨10, 0, false⟩] ∧
    (⟨2, 10, 3, false, "limit", 2⟩ : Order) ∈
      (addOrder bookTwoSells oBuyTwo).book.sell_heap := by
  constructor
  · decide
  · decide

/-- C2 (corrected) amended claim.  Each `LevelUpdate` emitted during
matching corresponds one-to-one, in order, with a trade of the same call; it
is for the resting side, carries the trade's (maker) price, and its
`new_quantity` equals the matched resting order's remaining quantity after
that trade: `new_quantity = 0` is emitted iff that particular resting order
was fully consumed and removed (given pairwise distinct resting order ids),
and a non-zero `new_quantity` means an order with the trade's maker id still
rests with exactly that remaining quantity — regardless of what else rests
at the same price. -/
theorem claim_C2_amended (book : Book) (o : Order) :
    (o.side = true → (book.sell_heap.map Order.order_id).Nodup →
      List.Forall₂ (fun (t : Trade) (u : Update) =>
        u.side = false ∧ u.price = t.price ∧
        (u.quantity = 0 →
          ∀ r ∈ (addOrder book o).book.sell_heap, r.order_id ≠ t.sell_order_id) ∧
        (u.quantity ≠ 0 → ∃ r ∈ (addOrder book o).book.sell_heap,
          r.order_id = t.sell_order_id ∧ r.price = u.price ∧
          r.quantity = u.quantity))
        (addOrder book o).trades (addOrder book o).updates) ∧
    (o.side = false → (book.buy_heap.map Order.order_id).Nodup →
      List.Forall₂ (fun (t : Trade) (u : Update) =>
        u.side = true ∧ u.price = t.price ∧
        (u.quantity = 0 →
          ∀ r ∈ (addOrder book o).book.buy_heap, r.order_id ≠ t.buy_order_id) ∧
        (u.quantity ≠ 0 → ∃ r ∈ (addOrder book o).book.buy_heap,
          r.order_id = t.buy_order_id ∧ r.price = u.price ∧
          r.quantity = u.quantity))
        (addOrder book o).trades (addOrder book o).updates) := by
  constructor
  · intro ho hnodup
    rw [addOrder_buy ho]
    exact matchBuy_updates_spec book.sell_heap o hnodup
  · intro ho hnodup
    rw [addOrder_sell ho]
    exact matchSell_updates_spec book.buy_heap o hnodup

/-- Witness for the amended C2: in the counterexample call, the single
update pairs with the single trade, its `new_quantity = 0` refers to the
consumed maker (id 1), and the order still resting (id 2) is indeed not that
maker. -/
theorem claim_C2_amended_witness :
    Order.order_id ⟨2, 10, 3, false, "limit", 2⟩ ≠
      Trade.sell_order_id ⟨3, 1, 10, 2⟩ := by
  have h := (claim_C2_amended bookTwoSells oBuyTwo).1 (by decide) (by decide)
  have ht : (addOrder bookTwoSells oBuyTwo).trades = [⟨3, 1, 10, 2⟩] := by decide
  have hu : (addOrder bookTwoSells oBuyTwo).updates = [⟨10, 0, false⟩] := by decide
  rw [ht, hu] at h
  cases h with
  | cons hpair htail =>
    exact hpair.2.2.1 rfl ⟨2, 10, 3, false, "limit", 2⟩ (by decide)

/-! ## Claim C9: the client replica applies updates unconditionally -/

theorem dictGet_dictSet (d : List (Int × Int)) (p q : Int) :
    dictGet (dictSet d p q) p = some q := by
  induction d with
  | nil => simp [dictSet, dictGet]
  | cons kv t ih =>
    by_cases hp : kv.1 = p
    · simp [dictSet, hp, dictGet]
    · simp [dictSet, hp, dictGet, ih]

/-- C9 (corrected) counterexample.  After applying a snapshot taken at
timestamp 10 with bids `{100: 5}`, the stale update (timestamp 3 ≤ 10,
price 100, quantity 7) is NOT discarded: `apply_update` changes the bid
dict, because the method contains no sequence/timestamp comparison at
all. -/
theorem claim_C9_counterexample :
    updStale.timestamp ≤ cbSnapTen.last_update_timestamp ∧
    (applyUpdate cbSnapTen updStale).bids ≠ cbSnapTen.bids := by
  constructor
  · decide
  · decide

/-- C9 (corrected) amended claim.  `ClientOrderBook.apply_update` performs
no out-of-order or duplicate filtering: every update is applied
unconditionally, whatever its timestamp relative to the snapshot or to
previously applied updates — a positive-quantity update always ends with the
side's dict mapping the price to the new quantity, and
`last_update_timestamp` is simply overwritten with the update's own
timestamp. -/
theorem claim_C9_amended (cb : ClientOrderBook) (u : ClientUpdate) :
    (applyUpdate cb u).last_update_timestamp = u.timestamp ∧
    (u.side = true → 0 < u.quantity →
      dictGet (applyUpdate cb u).bids u.price = some u.quantity) ∧
    (u.side = false → 0 < u.quantity →
      dictGet (applyUpdate cb u).asks u.price = some u.quantity) := by
  refine ⟨?_, ?_, ?_⟩
  · cases hs : u.side <;> by_cases hq : 0 < u.quantity <;>
      simp [applyUpdate, hs, hq]
  · intro hs hq
    simp [applyUpdate, hs, hq, dictGet_dictSet]
  · intro hs hq
    simp [applyUpdate, hs, hq, dictGet_dictSet]

/-- Witness for the amended C9: the stale update of the counterexample is
applied — the bid at price 100 now reads quantity 7 and the replica's
timestamp moved backwards to 3. -/
theorem claim_C9_amended_witness :
    (applyUpdate cbSnapTen updStale).last_update_timestamp = updStale.timestamp ∧
    dictGet (applyUpdate cbSnapTen updStale).bids updStale.price =
      some updStale.quantity :=
  ⟨(claim_C9_amended cbSnapTen updStale).1,
   (claim_C9_amended cbSnapTen updStale).2.1 (by decide) (by decide)⟩

end BidBeam
